import Mathlib

/-!
# Verification of the GEDCOM anonymization engine

Shallow embedding of `tools/anonymize_gedcom.py`: the line decomposer
(the regex `^(\d+)\s+(@[^@]+@\s+)?(\w+)(\s+(.*))?$`), the tag dispatch of
`GedcomAnonymizer.anonymize_line`, the stateful identity maps of
`anonymize_name` / `anonymize_place`, the date normalisation cascade of
`anonymize_date`, and the per-document loop of `anonymize_file`.

Python dictionaries are modelled as insertion-ordered association lists;
`str` values are Lean `String`s.  The regex character classes `\d`, `\s`,
`\w` are modelled over the character repertoire the tool actually meets
(ASCII digits/letters/underscore and the core whitespace characters);
greedy matching with backtracking is resolved into deterministic spans,
which is sound here because every pair of adjacent classes in the
patterns (`\d`/`\s`, `\s`/`\w`, `\s`/`.`) is disjoint, so giving
characters back can never create a match that the greedy run misses.
-/

set_option autoImplicit false

namespace Gedcom

/-- Python regex `\d` (ASCII decimal digit). -/
def isDigCh (c : Char) : Bool := '0' ≤ c && c ≤ '9'

/-- Python regex `\s` (whitespace: space, tab, newline, carriage return,
vertical tab, form feed). -/
def isWsCh (c : Char) : Bool :=
  c = ' ' || c = '\t' || c = '\n' || c = '\r' || c = '\x0b' || c = '\x0c'

/-- Python regex `\w` (word character: letter, digit or underscore). -/
def isWordCh (c : Char) : Bool := c.isAlpha || isDigCh c || c = '_'

/-- Python `str.strip()`: drop whitespace from both ends. -/
def pyStripL (l : List Char) : List Char :=
  ((l.dropWhile isWsCh).reverse.dropWhile isWsCh).reverse

def pyStrip (s : String) : String := String.mk (pyStripL s.toList)

/-- Python `line.rstrip('\n\r')`: drop trailing newline / carriage-return
characters. -/
def rstripNlCrL (l : List Char) : List Char :=
  (l.reverse.dropWhile (fun c => c = '\n' || c = '\r')).reverse

def rstripNlCr (s : String) : String := String.mk (rstripNlCrL s.toList)

/-- Python `if line.startswith('\uFEFF'): line = line[1:]`. -/
def stripBOM (s : String) : String :=
  match s.toList with
  | '\uFEFF' :: rest => String.mk rest
  | _ => s

/-- A decomposed GEDCOM line: the four capture groups of
`^(\d+)\s+(@[^@]+@\s+)?(\w+)(\s+(.*))?$` that `anonymize_line` uses.
`xref` keeps the trailing whitespace of group 2 verbatim; `value` is
group 5 with Python's `value or ""` applied. -/
structure DLine where
  level : String
  xref : Option String
  tag : String
  value : String
deriving DecidableEq

/-- Tail of the decomposition: `(\w+)(\s+(.*))?$` starting at `r`. -/
def parseTagVal (lvl : List Char) (xr : Option (List Char)) (r : List Char) :
    Option DLine :=
  let (tg, r2) := r.span isWordCh
  if tg.isEmpty then none
  else
    match r2 with
    | [] => some ⟨String.mk lvl, xr.map String.mk, String.mk tg, ""⟩
    | c :: _ =>
      if isWsCh c then
        some ⟨String.mk lvl, xr.map String.mk, String.mk tg,
              String.mk (r2.dropWhile isWsCh)⟩
      else none

/-- The full decomposition regex on a character list.  The optional xref
group `(@[^@]+@\s+)?` is attempted exactly when the character after the
level's whitespace is `@`; if any of its parts fail the regex backtracks
to skipping the group, which then makes `(\w+)` fail on `@` — so a
leading `@` either yields a complete xref or a failed match. -/
def decomposeL (s : List Char) : Option DLine :=
  let (ds, r1) := s.span isDigCh
  if ds.isEmpty then none
  else
    let (w1, r2) := r1.span isWsCh
    if w1.isEmpty then none
    else
      match r2 with
      | '@' :: t =>
        let (inner, r3) := t.span (fun c => !(c = '@'))
        if inner.isEmpty then none
        else
          match r3 with
          | '@' :: t2 =>
            let (w2, r4) := t2.span isWsCh
            if w2.isEmpty then none
            else parseTagVal ds (some ('@' :: (inner ++ '@' :: w2))) r4
          | _ => none
      | _ => parseTagVal ds none r2

def decompose (s : String) : Option DLine := decomposeL s.toList

/-- State built by `GedcomAnonymizer.__init__`: the two identity maps (as
insertion-ordered association lists), the configuration flags and the two
counters. -/
structure GedcomAnonymizer where
  name_map : List (String × String)
  place_map : List (String × String)
  keep_dates : Bool
  keep_places : Bool
  person_counter : Nat
  place_counter : Nat
deriving DecidableEq

def GedcomAnonymizer.init (keepDates keepPlaces : Bool) : GedcomAnonymizer :=
  { name_map := [], place_map := [],
    keep_dates := keepDates, keep_places := keepPlaces,
    person_counter := 1, place_counter := 1 }

/-- First-match lookup in an association list (Python dict lookup; the
maps never acquire duplicate keys because insertion is guarded by a
membership test). -/
def lookupV : List (String × String) → String → Option String
  | [], _ => none
  | (k, v) :: rest, q => if k = q then some v else lookupV rest q

def personPh (n : Nat) : String := "Person " ++ toString n

def placePh (n : Nat) : String := "Place " ++ toString n

/-- Method `GedcomAnonymizer.anonymize_name`: insert-if-absent then read back;
reading back a freshly inserted key returns the inserted placeholder. -/
def anonymize_name (st : GedcomAnonymizer) (name : String) :
    String × GedcomAnonymizer :=
  match lookupV st.name_map name with
  | some p => (p, st)
  | none =>
    let p := personPh st.person_counter
    (p, { st with name_map := st.name_map ++ [(name, p)],
                  person_counter := st.person_counter + 1 })

/-- Method `GedcomAnonymizer.anonymize_place`: early return under `keep_places`,
otherwise insert-if-absent then read back. -/
def anonymize_place (st : GedcomAnonymizer) (place : String) :
    String × GedcomAnonymizer :=
  if st.keep_places then (place, st)
  else
    match lookupV st.place_map place with
    | some p => (p, st)
    | none =>
      let p := placePh st.place_counter
      (p, { st with place_map := st.place_map ++ [(place, p)],
                    place_counter := st.place_counter + 1 })

/-- Pattern `\s+\w{3}\s+\d{4}` as an anchored prefix match (tail of date rule 1
after the day digits). -/
def wsThen4Digits (s : List Char) : Bool :=
  let (w, r) := s.span isWsCh
  !w.isEmpty &&
    match r with
    | a :: b :: c :: d :: _ => isDigCh a && isDigCh b && isDigCh c && isDigCh d
    | _ => false

/-- Tail of date rule 1 after the day digits, `\s+<token>{3}\s+\d{4}`,
generic in the character class of the three-character month token. -/
def rule1TailGen (tok : Char → Bool) (s : List Char) : Bool :=
  let (w, r) := s.span isWsCh
  !w.isEmpty &&
    match r with
    | a :: b :: c :: r2 => tok a && tok b && tok c && wsThen4Digits r2
    | _ => false

/-- Pattern `<1-2 digits>\s+<token>{3}\s+\d{4}` as an anchored prefix match: the
`{1,2}` repetition tries two digits first, then one (the disjunction
mirrors that backtracking). -/
def matchRule1Gen (tok : Char → Bool) : List Char → Bool
  | [] => false
  | c1 :: rest =>
    isDigCh c1 &&
      ((match rest with
        | c2 :: r2 => isDigCh c2 && rule1TailGen tok r2
        | [] => false)
       || rule1TailGen tok rest)

/-- Rule 1, `re.match(r'\d{1,2}\s+\w{3}\s+\d{4}', date)`: the month token class
is `\w`. -/
def matchRule1L : List Char → Bool := matchRule1Gen isWordCh

/-- The spec's reading of rule 1, with a *letter* month token
(`<1-2 digits><whitespace><3-letter token><whitespace><4 digits>`). -/
def matchRule1AlphaL : List Char → Bool := matchRule1Gen fun c => c.isAlpha

/-- The alternation `(ABT|BEF|AFT|CAL|EST)` at the start of the value,
tried in the regex's order (the five literals are mutually exclusive, so
the order is unobservable). -/
def qualOf : List Char → Option (String × List Char)
  | a :: b :: c :: r =>
    if a = 'A' ∧ b = 'B' ∧ c = 'T' then some ("ABT", r)
    else if a = 'B' ∧ b = 'E' ∧ c = 'F' then some ("BEF", r)
    else if a = 'A' ∧ b = 'F' ∧ c = 'T' then some ("AFT", r)
    else if a = 'C' ∧ b = 'A' ∧ c = 'L' then some ("CAL", r)
    else if a = 'E' ∧ b = 'S' ∧ c = 'T' then some ("EST", r)
    else none
  | _ => none

/-- Rule 2, `re.match(r'(ABT|BEF|AFT|CAL|EST)\s+\d{4}', date)`. -/
def matchRule2L (s : List Char) : Bool :=
  match qualOf s with
  | some (_, r) => wsThen4Digits r
  | none => false

/-- Rule 3, `re.match(r'\d{4}', date)`. -/
def matchRule3L : List Char → Bool
  | a :: b :: c :: d :: _ => isDigCh a && isDigCh b && isDigCh c && isDigCh d
  | _ => false

/-- Python `date.split()[0]`: first whitespace-separated token. -/
def firstTok (s : String) : String :=
  String.mk ((s.toList.dropWhile isWsCh).takeWhile (fun c => !isWsCh c))

/-- Method `GedcomAnonymizer.anonymize_date`: keep-dates pass-through, then the
first matching of the three regex rules, else unchanged. -/
def anonymize_date (st : GedcomAnonymizer) (date : String) : String :=
  if st.keep_dates then date
  else if matchRule1L date.toList then "1 JAN 1900"
  else if matchRule2L date.toList then firstTok date ++ " 1900"
  else if matchRule3L date.toList then "1900"
  else date

/-- Reassembly base, level then a single space, the xref verbatim when present, then the tag. -/
def buildBase (d : DLine) : String :=
  d.level ++ " " ++ (d.xref.getD "") ++ d.tag

def textTags : List String := ["NOTE", "TEXT", "CONT", "CONC"]
def namePartTags : List String := ["GIVN", "SURN", "NPFX", "NSFX", "NICK"]
def addrTags : List String := ["ADDR", "ADR1", "ADR2", "CITY", "STAE", "POST", "CTRY"]
def contactTags : List String := ["PHON", "EMAIL", "WWW", "FAX"]

/-- Method `GedcomAnonymizer.anonymize_line`: BOM strip, decomposition, tag
dispatch and reassembly.  The early-line warning `print` is
operator-facing diagnostics and is not modelled. -/
def anonymize_line (st : GedcomAnonymizer) (line : String) :
    String × GedcomAnonymizer :=
  let line := stripBOM line
  match decompose line with
  | none => (line, st)
  | some d =>
    let base := buildBase d
    if d.tag = "NAME" then
      let (v, st') := anonymize_name st d.value
      (base ++ " " ++ v, st')
    else if d.tag = "PLAC" then
      let (v, st') := anonymize_place st d.value
      (base ++ " " ++ v, st')
    else if d.tag = "DATE" then
      (base ++ " " ++ anonymize_date st d.value, st)
    else if d.tag ∈ textTags then
      (if pyStrip d.value ≠ "" then base ++ " [anonymized text]" else base, st)
    else if d.tag ∈ namePartTags then
      (if pyStrip d.value ≠ "" then base ++ " [anonymized]" else base, st)
    else if d.tag ∈ addrTags then
      (if pyStrip d.value ≠ "" then base ++ " [anonymized]" else base, st)
    else if d.tag ∈ contactTags then
      (if pyStrip d.value ≠ "" then base ++ " [anonymized]" else base, st)
    else if d.tag = "TITL" ∧ d.level = "1" then
      (if pyStrip d.value ≠ "" then base ++ " [anonymized]" else base, st)
    else
      (if d.value ≠ "" then base ++ " " ++ d.value else base, st)

/-- The per-line loop of `GedcomAnonymizer.anonymize_file` over the line
bodies delivered by the (excluded) reader: each line is
`rstrip('\n\r')`-ed, blank lines are appended untouched, the rest go
through `anonymize_line`.  The text-mode reader's universal-newline
handling guarantees the bodies contain no `'\n'` or `'\r'`. -/
def anonymize_lines (st : GedcomAnonymizer) :
    List String → List String × GedcomAnonymizer
  | [] => ([], st)
  | l :: ls =>
    let l' := rstripNlCr l
    if pyStrip l' = "" then
      let (outs, st') := anonymize_lines st ls
      (l' :: outs, st')
    else
      let (out, st1) := anonymize_line st l'
      let (outs, st') := anonymize_lines st1 ls
      (out :: outs, st')

/-- One whole-document run on a fresh engine. -/
def anonymize_file (keepDates keepPlaces : Bool) (lines : List String) :
    List String × GedcomAnonymizer :=
  anonymize_lines (GedcomAnonymizer.init keepDates keepPlaces) lines

/-! ## Analysis-side definitions

Definitions used to *state* properties of the program: decimal digits
(to reason about placeholder numbering), the sequence of NAME/PLAC
values a document presents to the engine, first-occurrence lists,
the canonical form of the identity maps, and the spec's shape
predicates for the date rules. -/

/-- Decimal digit string of a natural number, most significant first
(reference renderer used to prove `Nat.repr` injective). -/
def decDigits (n : Nat) : List Char :=
  if _h : n < 10 then [Nat.digitChar n]
  else decDigits (n / 10) ++ [Nat.digitChar (n % 10)]
decreasing_by
  exact Nat.div_lt_self (by omega) (by omega)

/-- Does the string contain a newline or carriage-return character?
Line bodies delivered by the text-mode reader never do (universal
newline translation). -/
def hasNlCr (s : String) : Bool := s.toList.any fun c => c = '\n' || c = '\r'

/-- The NAME value a raw line contributes to the engine, if any:
the line must be non-blank after `rstrip('\n\r')`, decompose after BOM
stripping, and carry tag `NAME`. -/
def lineNameVal (l : String) : Option String :=
  if pyStrip (rstripNlCr l) = "" then none
  else
    match decompose (stripBOM (rstripNlCr l)) with
    | some d => if d.tag = "NAME" then some d.value else none
    | none => none

/-- The PLAC value a raw line contributes to the engine, if any. -/
def linePlaceVal (l : String) : Option String :=
  if pyStrip (rstripNlCr l) = "" then none
  else
    match decompose (stripBOM (rstripNlCr l)) with
    | some d => if d.tag = "PLAC" then some d.value else none
    | none => none

/-- All NAME values of a document, in document order. -/
def nameVals (ls : List String) : List String := ls.filterMap lineNameVal

/-- All PLAC values of a document, in document order. -/
def placeVals (ls : List String) : List String := ls.filterMap linePlaceVal

/-- First occurrences of the values not yet in `seen`, in order. -/
def foAux (seen : List String) : List String → List String
  | [] => []
  | v :: vs => if v ∈ seen then foAux seen vs else v :: foAux (seen ++ [v]) vs

/-- The distinct values of a list, in first-occurrence order. -/
def firstOccs (vs : List String) : List String := foAux [] vs

/-- The association list mapping the `i`-th key of `ds` (0-based) to the
placeholder numbered `c + i`. -/
def numbered (ph : Nat → String) (c : Nat) : List String → List (String × String)
  | [] => []
  | v :: vs => (v, ph c) :: numbered ph (c + 1) vs

/-- Insert-if-absent with the next counter value (the common core of
`anonymize_name` and `anonymize_place`). -/
def insPh (ph : Nat → String) (m : List (String × String)) (c : Nat)
    (v : String) : List (String × String) × Nat :=
  match lookupV m v with
  | some _ => (m, c)
  | none => (m ++ [(v, ph c)], c + 1)

/-- Fold `insPh` over a value sequence. -/
def foldIns (ph : Nat → String) : List (String × String) × Nat → List String →
    List (String × String) × Nat
  | p, [] => p
  | (m, c), v :: vs => foldIns ph (insPh ph m c v) vs

/-- The engine-state invariant of the identity maps: each counter is one
more than its map's size and the map's values, in insertion order, are
exactly the placeholders numbered `1 .. size`. -/
def EngineInv (st : GedcomAnonymizer) : Prop :=
  st.person_counter = st.name_map.length + 1 ∧
  st.name_map.map Prod.snd
    = (List.range st.name_map.length).map (fun i => personPh (i + 1)) ∧
  st.place_counter = st.place_map.length + 1 ∧
  st.place_map.map Prod.snd
    = (List.range st.place_map.length).map (fun i => placePh (i + 1))

/-- A non-empty all-whitespace block. -/
def WsBlock (w : List Char) : Prop := w ≠ [] ∧ ∀ c ∈ w, isWsCh c = true

/-- Date rule 1's shape, generic in the month-token class:
one or two digits, whitespace, a three-character token, whitespace,
four digits. -/
def Rule1Shape (tok : Char → Bool) (p : List Char) : Prop :=
  ∃ d1 w1 t w2 d4,
    p = d1 ++ w1 ++ t ++ w2 ++ d4 ∧
    (1 ≤ d1.length ∧ d1.length ≤ 2 ∧ ∀ c ∈ d1, isDigCh c = true) ∧
    WsBlock w1 ∧
    (t.length = 3 ∧ ∀ c ∈ t, tok c = true) ∧
    WsBlock w2 ∧
    (d4.length = 4 ∧ ∀ c ∈ d4, isDigCh c = true)

/-- Holds when some prefix of the value has the rule 1 shape. -/
def Rule1Prefixed (tok : Char → Bool) (s : String) : Prop :=
  ∃ p q, s.toList = p ++ q ∧ Rule1Shape tok p

/-- The five date qualifiers of rule 2. -/
def dateQualifiers : List String := ["ABT", "BEF", "AFT", "CAL", "EST"]

/-- Date rule 2's shape as an anchored prefix: qualifier `q`, whitespace,
four digits, then anything. -/
def Rule2PrefixWith (s : String) (q : String) : Prop :=
  ∃ w d4 r,
    s.toList = q.toList ++ w ++ d4 ++ r ∧
    WsBlock w ∧ (d4.length = 4 ∧ ∀ c ∈ d4, isDigCh c = true)

def Rule2Prefixed (s : String) : Prop := ∃ q ∈ dateQualifiers, Rule2PrefixWith s q

/-- Date rule 3's shape as an anchored prefix: four digits, then
anything. -/
def Rule3Prefixed (s : String) : Prop :=
  ∃ d4 r, s.toList = d4 ++ r ∧ d4.length = 4 ∧ ∀ c ∈ d4, isDigCh c = true

/-- The natural number a digit string denotes in decimal
(Python `int(level)`); used to state claims about the *numeric* nesting
level as opposed to the level token. -/
def digitsVal (s : String) : Nat :=
  s.toList.foldl (fun acc c => acc * 10 + (c.toNat - 48)) 0

/-- The substituted value of the dispatch table (spec §4.2), used to
state the reassembly property: what each policy puts after the tag,
with the empty string standing for "no value emitted". -/
def substValue (st : GedcomAnonymizer) (d : DLine) : String :=
  if d.tag = "NAME" then (anonymize_name st d.value).1
  else if d.tag = "PLAC" then (anonymize_place st d.value).1
  else if d.tag = "DATE" then anonymize_date st d.value
  else if d.tag ∈ textTags then
    (if pyStrip d.value ≠ "" then "[anonymized text]" else "")
  else if d.tag ∈ namePartTags ∨ d.tag ∈ addrTags ∨ d.tag ∈ contactTags then
    (if pyStrip d.value ≠ "" then "[anonymized]" else "")
  else if d.tag = "TITL" ∧ d.level = "1" then
    (if pyStrip d.value ≠ "" then "[anonymized]" else "")
  else d.value

/-! ## Character-class facts -/

theorem isWsCh_cases {c : Char} (h : isWsCh c = true) :
    c = ' ' ∨ c = '\t' ∨ c = '\n' ∨ c = '\r' ∨ c = '\x0b' ∨ c = '\x0c' := by
  have h' := h
  simp only [isWsCh, Bool.or_eq_true, decide_eq_true_eq] at h'
  tauto

theorem ws_not_dig {c : Char} (h : isWsCh c = true) : isDigCh c = false := by
  rcases isWsCh_cases h with h' | h' | h' | h' | h' | h' <;> subst h' <;> decide

theorem ws_not_word {c : Char} (h : isWsCh c = true) : isWordCh c = false := by
  rcases isWsCh_cases h with h' | h' | h' | h' | h' | h' <;> subst h' <;> decide

theorem dig_not_ws {c : Char} (h : isDigCh c = true) : isWsCh c = false := by
  by_contra h'
  have hw : isWsCh c = true := by
    cases hb : isWsCh c with
    | false => exact absurd hb h'
    | true => rfl
  rw [ws_not_dig hw] at h
  exact Bool.false_ne_true h

theorem word_not_ws {c : Char} (h : isWordCh c = true) : isWsCh c = false := by
  by_contra h'
  have hw : isWsCh c = true := by
    cases hb : isWsCh c with
    | false => exact absurd hb h'
    | true => rfl
  rw [ws_not_word hw] at h
  exact Bool.false_ne_true h

theorem alpha_not_ws {c : Char} (h : c.isAlpha = true) : isWsCh c = false := by
  apply word_not_ws
  simp [isWordCh, h]

theorem dig_isWord {c : Char} (h : isDigCh c = true) : isWordCh c = true := by
  simp [isWordCh, h]

/-! ## Association-list lookup -/

theorem lookupV_append_some {m m' : List (String × String)} {q p : String}
    (h : lookupV m q = some p) : lookupV (m ++ m') q = some p := by
  induction m with
  | nil => simp [lookupV] at h
  | cons kv rest ih =>
    obtain ⟨k, v⟩ := kv
    by_cases hk : k = q
    · simp only [List.cons_append, lookupV, if_pos hk] at h ⊢
      exact h
    · rw [List.cons_append, lookupV, if_neg hk]
      exact ih (by simpa [lookupV, hk] using h)

theorem lookupV_append_none {m m' : List (String × String)} {q : String}
    (h : lookupV m q = none) : lookupV (m ++ m') q = lookupV m' q := by
  induction m with
  | nil => simp
  | cons kv rest ih =>
    obtain ⟨k, v⟩ := kv
    by_cases hk : k = q
    · simp [lookupV, hk] at h
    · rw [List.cons_append, lookupV, if_neg hk]
      exact ih (by simpa [lookupV, hk] using h)

theorem lookupV_mem_snd {m : List (String × String)} {q p : String}
    (h : lookupV m q = some p) : p ∈ m.map Prod.snd := by
  induction m with
  | nil => simp [lookupV] at h
  | cons kv rest ih =>
    obtain ⟨k, v⟩ := kv
    by_cases hk : k = q
    · simp only [lookupV, if_pos hk] at h
      injection h with h
      simp [h]
    · simp only [lookupV, if_neg hk] at h
      simp [ih h]

/-! ## Decimal rendering is injective -/

theorem decDigits_small {n : Nat} (h : n < 10) :
    decDigits n = [Nat.digitChar n] := by
  rw [decDigits, dif_pos h]

theorem decDigits_big {n : Nat} (h : ¬ n < 10) :
    decDigits n = decDigits (n / 10) ++ [Nat.digitChar (n % 10)] := by
  rw [decDigits, dif_neg h]

theorem decDigits_ne_nil (n : Nat) : decDigits n ≠ [] := by
  by_cases h : n < 10
  · rw [decDigits_small h]; simp
  · rw [decDigits_big h]; simp

theorem digitChar_inj_lt :
    ∀ a < 10, ∀ b < 10, Nat.digitChar a = Nat.digitChar b → a = b := by
  decide

theorem decDigits_inj : ∀ a b : Nat, decDigits a = decDigits b → a = b := by
  intro a
  induction a using Nat.strong_induction_on with
  | _ a ih =>
    intro b h
    by_cases ha : a < 10 <;> by_cases hb : b < 10
    · rw [decDigits_small ha, decDigits_small hb] at h
      exact digitChar_inj_lt a ha b hb (by injection h)
    · rw [decDigits_small ha, decDigits_big hb] at h
      have hlen := congrArg List.length h
      rw [List.length_append] at hlen
      simp only [List.length_cons, List.length_nil] at hlen
      have h0 : (decDigits (b / 10)).length = 0 := by omega
      exact absurd (List.length_eq_zero.mp h0) (decDigits_ne_nil _)
    · rw [decDigits_big ha, decDigits_small hb] at h
      have hlen := congrArg List.length h
      rw [List.length_append] at hlen
      simp only [List.length_cons, List.length_nil] at hlen
      have h0 : (decDigits (a / 10)).length = 0 := by omega
      exact absurd (List.length_eq_zero.mp h0) (decDigits_ne_nil _)
    · rw [decDigits_big ha, decDigits_big hb] at h
      obtain ⟨h1, h2⟩ := List.append_inj' h (by simp)
      have hmod : a % 10 = b % 10 :=
        digitChar_inj_lt _ (Nat.mod_lt _ (by omega)) _ (Nat.mod_lt _ (by omega))
          (by injection h2)
      have hdiv : a / 10 = b / 10 :=
        ih (a / 10) (Nat.div_lt_self (by omega) (by omega)) _ h1
      have hda := Nat.div_add_mod a 10
      have hdb := Nat.div_add_mod b 10
      omega

theorem toDigitsCore_eq_dec :
    ∀ fuel n acc, n < fuel →
      Nat.toDigitsCore 10 fuel n acc = decDigits n ++ acc := by
  intro fuel
  induction fuel with
  | zero => intro n acc h; omega
  | succ f ih =>
    intro n acc h
    rw [Nat.toDigitsCore]
    by_cases h10 : n / 10 = 0
    · have hn : n < 10 := by
        have := Nat.div_add_mod n 10
        have : n % 10 < 10 := Nat.mod_lt _ (by omega)
        omega
      rw [if_pos h10, decDigits_small hn, Nat.mod_eq_of_lt hn]
      simp
    · have hn : ¬ n < 10 := by
        intro hlt
        exact h10 (Nat.div_eq_of_lt hlt)
      rw [if_neg h10, decDigits_big hn]
      have hdiv : n / 10 < f := by
        have h2 : n / 10 < n := Nat.div_lt_self (by omega) (by omega)
        omega
      rw [ih (n / 10) (Nat.digitChar (n % 10) :: acc) hdiv]
      simp

theorem natRepr_eq_dec (n : Nat) : Nat.repr n = (decDigits n).asString := by
  show (Nat.toDigits 10 n).asString = (decDigits n).asString
  rw [Nat.toDigits, toDigitsCore_eq_dec (n + 1) n [] (by omega)]
  simp

theorem natRepr_inj {a b : Nat} (h : Nat.repr a = Nat.repr b) : a = b := by
  rw [natRepr_eq_dec, natRepr_eq_dec] at h
  apply decDigits_inj
  have := congrArg String.data h
  simpa [List.asString] using this

theorem personPh_inj {a b : Nat} (h : personPh a = personPh b) : a = b := by
  apply natRepr_inj
  have hd := congrArg String.data h
  simp only [personPh] at hd
  apply String.ext
  have : ("Person " ++ toString a).data = ("Person " ++ toString b).data := hd
  simpa [String.data_append] using this

theorem placePh_inj {a b : Nat} (h : placePh a = placePh b) : a = b := by
  apply natRepr_inj
  have hd := congrArg String.data h
  simp only [placePh] at hd
  apply String.ext
  have : ("Place " ++ toString a).data = ("Place " ++ toString b).data := hd
  simpa [String.data_append] using this

theorem personPh_ne_empty (n : Nat) : personPh n ≠ "" := by
  intro h
  have hlen := congrArg String.length h
  rw [personPh, String.length_append] at hlen
  have h7 : ("Person " : String).length = 7 := rfl
  have h0 : ("" : String).length = 0 := rfl
  omega

theorem placePh_ne_empty (n : Nat) : placePh n ≠ "" := by
  intro h
  have hlen := congrArg String.length h
  rw [placePh, String.length_append] at hlen
  have h6 : ("Place " : String).length = 6 := rfl
  have h0 : ("" : String).length = 0 := rfl
  omega

/-! ## Spans over blocks -/

theorem takeWhile_append_all {p : Char → Bool} {xs : List Char}
    (ys : List Char) (h : ∀ x ∈ xs, p x = true) :
    (xs ++ ys).takeWhile p = xs ++ ys.takeWhile p := by
  induction xs with
  | nil => simp
  | cons a l ih =>
    rw [List.cons_append, List.takeWhile_cons, if_pos (h a (by simp)),
        ih fun x hx => h x (by simp [hx]), List.cons_append]

theorem dropWhile_append_all {p : Char → Bool} {xs : List Char}
    (ys : List Char) (h : ∀ x ∈ xs, p x = true) :
    (xs ++ ys).dropWhile p = ys.dropWhile p := by
  induction xs with
  | nil => simp
  | cons a l ih =>
    rw [List.cons_append, List.dropWhile_cons, if_pos (h a (by simp))]
    exact ih fun x hx => h x (by simp [hx])

theorem takeWhile_cons_neg {p : Char → Bool} {a : Char} (l : List Char)
    (h : p a = false) : (a :: l).takeWhile p = [] := by
  rw [List.takeWhile_cons, if_neg (by simp [h])]

theorem dropWhile_cons_neg {p : Char → Bool} {a : Char} (l : List Char)
    (h : p a = false) : (a :: l).dropWhile p = a :: l := by
  rw [List.dropWhile_cons, if_neg (by simp [h])]

theorem isEmpty_false_of_ne_nil {l : List Char} (h : l ≠ []) :
    l.isEmpty = false := by
  cases l with
  | nil => exact absurd rfl h
  | cons a l => rfl

theorem ne_nil_of_isEmpty_false {l : List Char} (h : l.isEmpty = false) :
    l ≠ [] := by
  cases l with
  | nil => simp at h
  | cons a l => simp

/-! ## Date rule characterizations -/

theorem wsThen4Digits_iff {s : List Char} :
    wsThen4Digits s = true ↔
      ∃ w d4 r, s = w ++ d4 ++ r ∧ WsBlock w ∧ d4.length = 4 ∧
        ∀ c ∈ d4, isDigCh c = true := by

  constructor
  · intro h
    rw [wsThen4Digits, List.span_eq_take_drop] at h
    simp only [Bool.and_eq_true, Bool.not_eq_true'] at h
    obtain ⟨hw, hm⟩ := h
    rcases hr : s.dropWhile isWsCh with _ | ⟨a, _ | ⟨b, _ | ⟨c, _ | ⟨d, rest⟩⟩⟩⟩ <;>
      rw [hr] at hm <;> simp only [Bool.and_eq_true] at hm
    · exact absurd hm (by simp)
    · exact absurd hm (by simp)
    · exact absurd hm (by simp)
    · exact absurd hm (by simp)
    · refine ⟨s.takeWhile isWsCh, [a, b, c, d], rest, ?_, ⟨?_, ?_⟩, rfl, ?_⟩
      · rw [List.append_assoc]
        conv_lhs => rw [← List.takeWhile_append_dropWhile isWsCh s]
        rw [hr]
        rfl
      · exact ne_nil_of_isEmpty_false hw
      · exact fun c hc => List.mem_takeWhile_imp hc
      · obtain ⟨⟨⟨h1, h2⟩, h3⟩, h4⟩ := hm
        intro x hx
        simp only [List.mem_cons, List.not_mem_nil, or_false] at hx
        rcases hx with rfl | rfl | rfl | rfl
        · exact h1
        · exact h2
        · exact h3
        · exact h4
  · rintro ⟨w, d4, r, hs, ⟨hwne, hwall⟩, hlen, hdig⟩
    subst hs
    rcases d4 with _ | ⟨a, _ | ⟨b, _ | ⟨c, _ | ⟨d, rest⟩⟩⟩⟩ <;> simp at hlen
    subst hlen
    have hda : isDigCh a = true := hdig a (by simp)
    rw [wsThen4Digits, List.span_eq_take_drop, List.append_assoc,
        takeWhile_append_all _ hwall, dropWhile_append_all _ hwall,
        List.cons_append,
        takeWhile_cons_neg _ (by rw [dig_not_ws hda]),
        dropWhile_cons_neg _ (by rw [dig_not_ws hda])]
    simp only [List.append_nil, Bool.and_eq_true, Bool.not_eq_true']
    refine ⟨isEmpty_false_of_ne_nil hwne, ?_⟩
    simp only [List.cons_append, List.nil_append, Bool.and_eq_true]
    exact ⟨⟨⟨hda, hdig b (by simp)⟩, hdig c (by simp)⟩, hdig d (by simp)⟩

theorem rule1TailGen_iff {tok : Char → Bool}
    (htok : ∀ c, tok c = true → isWsCh c = false) {s : List Char} :
    rule1TailGen tok s = true ↔
      ∃ w t r2, s = w ++ t ++ r2 ∧ WsBlock w ∧ t.length = 3 ∧
        (∀ c ∈ t, tok c = true) ∧ wsThen4Digits r2 = true := by
  constructor
  · intro h
    rw [rule1TailGen, List.span_eq_take_drop] at h
    simp only [Bool.and_eq_true, Bool.not_eq_true'] at h
    obtain ⟨hw, hm⟩ := h
    rcases hr : s.dropWhile isWsCh with _ | ⟨a, _ | ⟨b, _ | ⟨c, rest⟩⟩⟩ <;>
      rw [hr] at hm <;> simp only [Bool.and_eq_true] at hm
    · exact absurd hm (by simp)
    · exact absurd hm (by simp)
    · exact absurd hm (by simp)
    · obtain ⟨⟨⟨h1, h2⟩, h3⟩, h4⟩ := hm
      refine ⟨s.takeWhile isWsCh, [a, b, c], rest, ?_, ⟨?_, ?_⟩, rfl, ?_, h4⟩
      · rw [List.append_assoc]
        conv_lhs => rw [← List.takeWhile_append_dropWhile isWsCh s]
        rw [hr]
        rfl
      · exact ne_nil_of_isEmpty_false hw
      · exact fun c hc => List.mem_takeWhile_imp hc
      · intro x hx
        simp only [List.mem_cons, List.not_mem_nil, or_false] at hx
        rcases hx with rfl | rfl | rfl
        · exact h1
        · exact h2
        · exact h3
  · rintro ⟨w, t, r2, hs, ⟨hwne, hwall⟩, hlen, htokall, h4⟩
    subst hs
    rcases t with _ | ⟨a, _ | ⟨b, _ | ⟨c, rest⟩⟩⟩ <;> simp at hlen
    subst hlen
    have hta : tok a = true := htokall a (by simp)
    rw [rule1TailGen, List.span_eq_take_drop, List.append_assoc,
        takeWhile_append_all _ hwall, dropWhile_append_all _ hwall,
        List.cons_append,
        takeWhile_cons_neg _ (htok a hta),
        dropWhile_cons_neg _ (htok a hta)]
    simp only [List.append_nil, Bool.and_eq_true, Bool.not_eq_true']
    refine ⟨isEmpty_false_of_ne_nil hwne, ?_⟩
    simp only [List.cons_append, List.nil_append, Bool.and_eq_true]
    exact ⟨⟨⟨hta, htokall b (by simp)⟩, htokall c (by simp)⟩, h4⟩

theorem matchRule1Gen_cons (tok : Char → Bool) (c1 : Char) (rest : List Char) :
    matchRule1Gen tok (c1 :: rest)
      = (isDigCh c1 &&
          ((match rest with
            | c2 :: r2 => isDigCh c2 && rule1TailGen tok r2
            | [] => false)
           || rule1TailGen tok rest)) := rfl

/-- The rule-1 regex matches exactly when some prefix of the value has
the rule-1 shape. -/
theorem matchRule1Gen_iff {tok : Char → Bool}
    (htok : ∀ c, tok c = true → isWsCh c = false) {s : List Char} :
    matchRule1Gen tok s = true ↔ ∃ p q, s = p ++ q ∧ Rule1Shape tok p := by
  constructor
  · intro h
    rcases s with _ | ⟨c1, rest⟩
    · simp [matchRule1Gen] at h
    · rw [matchRule1Gen_cons] at h
      simp only [Bool.and_eq_true, Bool.or_eq_true] at h
      obtain ⟨h1, h2⟩ := h
      rcases h2 with h2 | h2
      · rcases rest with _ | ⟨c2, r2⟩
        · simp at h2
        · simp only [Bool.and_eq_true] at h2
          obtain ⟨hd2, ht⟩ := h2
          obtain ⟨w, t, rr, hre, hwb, hlen, htk, h4⟩ :=
            (rule1TailGen_iff htok).mp ht
          obtain ⟨w2, d4, r4, hr2, hwb2, hlen4, hdig4⟩ :=
            wsThen4Digits_iff.mp h4
          refine ⟨[c1, c2] ++ w ++ t ++ w2 ++ d4, r4, ?_, ?_⟩
          · rw [hre] at *
            rw [hr2]
            simp [List.append_assoc]
          · refine ⟨[c1, c2], w, t, w2, d4, rfl, ⟨by simp, by simp, ?_⟩,
              hwb, ⟨hlen, htk⟩, hwb2, hlen4, hdig4⟩
            intro x hx
            simp only [List.mem_cons, List.not_mem_nil, or_false] at hx
            rcases hx with rfl | rfl
            · exact h1
            · exact hd2
      · obtain ⟨w, t, rr, hre, hwb, hlen, htk, h4⟩ :=
          (rule1TailGen_iff htok).mp h2
        obtain ⟨w2, d4, r4, hr2, hwb2, hlen4, hdig4⟩ :=
          wsThen4Digits_iff.mp h4
        refine ⟨[c1] ++ w ++ t ++ w2 ++ d4, r4, ?_, ?_⟩
        · rw [hre] at *
          rw [hr2]
          simp [List.append_assoc]
        · refine ⟨[c1], w, t, w2, d4, rfl, ⟨by simp, by simp, ?_⟩,
            hwb, ⟨hlen, htk⟩, hwb2, hlen4, hdig4⟩
          intro x hx
          simp only [List.mem_cons, List.not_mem_nil, or_false] at hx
          rcases hx with rfl
          exact h1
  · rintro ⟨p, q, hs, d1, w1, t, w2, d4, hp, ⟨hd1a, hd1b, hd1dig⟩,
      hw1, ⟨htlen, htall⟩, hw2, hd4len, hd4dig⟩
    subst hp
    subst hs
    have htail : rule1TailGen tok (w1 ++ (t ++ (w2 ++ (d4 ++ q)))) = true := by
      apply (rule1TailGen_iff htok).mpr
      refine ⟨w1, t, w2 ++ (d4 ++ q), by simp [List.append_assoc], hw1,
        htlen, htall, wsThen4Digits_iff.mpr ⟨w2, d4, q, by
          simp [List.append_assoc], hw2, hd4len, hd4dig⟩⟩
    rcases d1 with _ | ⟨a, _ | ⟨b, rest1⟩⟩
    · simp at hd1a
    · have hs' : (([a] ++ w1 ++ t ++ w2 ++ d4) ++ q : List Char)
          = a :: (w1 ++ (t ++ (w2 ++ (d4 ++ q)))) := by
        simp [List.append_assoc]
      rw [hs', matchRule1Gen_cons]
      simp only [Bool.and_eq_true, Bool.or_eq_true]
      exact ⟨hd1dig a (by simp), Or.inr htail⟩
    · have hrest : rest1 = [] := by
        simp only [List.length_cons] at hd1b
        exact List.length_eq_zero.mp (by omega)
      subst hrest
      have hs' : (([a, b] ++ w1 ++ t ++ w2 ++ d4) ++ q : List Char)
          = a :: b :: (w1 ++ (t ++ (w2 ++ (d4 ++ q)))) := by
        simp [List.append_assoc]
      rw [hs', matchRule1Gen_cons]
      simp only [Bool.and_eq_true, Bool.or_eq_true]
      exact ⟨hd1dig a (by simp), Or.inl ⟨hd1dig b (by simp), htail⟩⟩

/-! ## Rule 2 and rule 3 -/

theorem qualOf_eq_some {l : List Char} {q : String} {r : List Char}
    (h : qualOf l = some (q, r)) : q ∈ dateQualifiers ∧ l = q.toList ++ r := by
  rcases l with _ | ⟨a, _ | ⟨b, _ | ⟨c, rest⟩⟩⟩
  · simp [qualOf] at h
  · simp [qualOf] at h
  · simp [qualOf] at h
  · rw [qualOf] at h
    split_ifs at h with h1 h2 h3 h4 h5 <;>
      simp only [Option.some.injEq, Prod.mk.injEq] at h
    · obtain ⟨rfl, rfl, rfl⟩ := h1
      obtain ⟨rfl, rfl⟩ := h
      exact ⟨by decide, rfl⟩
    · obtain ⟨rfl, rfl, rfl⟩ := h2
      obtain ⟨rfl, rfl⟩ := h
      exact ⟨by decide, rfl⟩
    · obtain ⟨rfl, rfl, rfl⟩ := h3
      obtain ⟨rfl, rfl⟩ := h
      exact ⟨by decide, rfl⟩
    · obtain ⟨rfl, rfl, rfl⟩ := h4
      obtain ⟨rfl, rfl⟩ := h
      exact ⟨by decide, rfl⟩
    · obtain ⟨rfl, rfl, rfl⟩ := h5
      obtain ⟨rfl, rfl⟩ := h
      exact ⟨by decide, rfl⟩

theorem qualOf_of_mem {q : String} (hq : q ∈ dateQualifiers) (r : List Char) :
    qualOf (q.toList ++ r) = some (q, r) := by
  simp only [dateQualifiers, List.mem_cons, List.not_mem_nil, or_false] at hq
  rcases hq with rfl | rfl | rfl | rfl | rfl
  · rw [show ("ABT" : String).toList ++ r = 'A' :: 'B' :: 'T' :: r from rfl,
      qualOf, if_pos (by decide)]
  · rw [show ("BEF" : String).toList ++ r = 'B' :: 'E' :: 'F' :: r from rfl,
      qualOf, if_neg (by decide), if_pos (by decide)]
  · rw [show ("AFT" : String).toList ++ r = 'A' :: 'F' :: 'T' :: r from rfl,
      qualOf, if_neg (by decide), if_neg (by decide), if_pos (by decide)]
  · rw [show ("CAL" : String).toList ++ r = 'C' :: 'A' :: 'L' :: r from rfl,
      qualOf, if_neg (by decide), if_neg (by decide), if_neg (by decide),
      if_pos (by decide)]
  · rw [show ("EST" : String).toList ++ r = 'E' :: 'S' :: 'T' :: r from rfl,
      qualOf, if_neg (by decide), if_neg (by decide), if_neg (by decide),
      if_neg (by decide), if_pos (by decide)]

/-- The rule-2 regex matches exactly when the value starts with a
qualifier, whitespace and four digits. -/
theorem matchRule2L_iff {l : List Char} :
    matchRule2L l = true ↔
      ∃ q ∈ dateQualifiers, ∃ w d4 r,
        l = q.toList ++ w ++ d4 ++ r ∧ WsBlock w ∧ d4.length = 4 ∧
          ∀ c ∈ d4, isDigCh c = true := by
  constructor
  · intro h
    rcases hq : qualOf l with _ | ⟨q0, r0⟩
    · rw [matchRule2L, hq] at h
      simp at h
    · rw [matchRule2L, hq] at h
      obtain ⟨hmem, hl⟩ := qualOf_eq_some hq
      obtain ⟨w, d4, r, hr0, hwb, hlen, hdig⟩ := wsThen4Digits_iff.mp h
      exact ⟨q0, hmem, w, d4, r,
        by rw [hl, hr0]; simp [List.append_assoc], hwb, hlen, hdig⟩
  · rintro ⟨q, hmem, w, d4, r, hl, hwb, hlen, hdig⟩
    have hl' : l = q.toList ++ (w ++ d4 ++ r) := by
      rw [hl]; simp [List.append_assoc]
    rw [matchRule2L, hl', qualOf_of_mem hmem]
    exact wsThen4Digits_iff.mpr ⟨w, d4, r, rfl, hwb, hlen, hdig⟩

/-- The rule-3 regex matches exactly when the value starts with four
digits. -/
theorem matchRule3L_iff {l : List Char} :
    matchRule3L l = true ↔
      ∃ d4 r, l = d4 ++ r ∧ d4.length = 4 ∧ ∀ c ∈ d4, isDigCh c = true := by
  constructor
  · intro h
    rcases l with _ | ⟨a, _ | ⟨b, _ | ⟨c, _ | ⟨d, rest⟩⟩⟩⟩ <;>
      simp only [matchRule3L, Bool.and_eq_true] at h
    · exact absurd h (by simp)
    · exact absurd h (by simp)
    · exact absurd h (by simp)
    · exact absurd h (by simp)
    · obtain ⟨⟨⟨h1, h2⟩, h3⟩, h4⟩ := h
      refine ⟨[a, b, c, d], rest, rfl, rfl, ?_⟩
      intro x hx
      simp only [List.mem_cons, List.not_mem_nil, or_false] at hx
      rcases hx with rfl | rfl | rfl | rfl
      · exact h1
      · exact h2
      · exact h3
      · exact h4
  · rintro ⟨d4, r, hl, hlen, hdig⟩
    subst hl
    rcases d4 with _ | ⟨a, _ | ⟨b, _ | ⟨c, _ | ⟨d, rest⟩⟩⟩⟩ <;> simp at hlen
    subst hlen
    simp only [List.cons_append, List.nil_append, matchRule3L,
      Bool.and_eq_true]
    exact ⟨⟨⟨hdig a (by simp), hdig b (by simp)⟩, hdig c (by simp)⟩,
      hdig d (by simp)⟩

/-! ## The three date rules are pairwise disjoint -/

theorem rule1TailGen_head_not_ws {tok : Char → Bool} {x : Char}
    (xs : List Char) (h : isWsCh x = false) :
    rule1TailGen tok (x :: xs) = false := by
  rw [rule1TailGen, List.span_eq_take_drop, takeWhile_cons_neg _ h]
  rfl

theorem matchRule1Gen_head_not_dig {tok : Char → Bool} {a : Char}
    (rest : List Char) (h : isDigCh a = false) :
    matchRule1Gen tok (a :: rest) = false := by
  rw [matchRule1Gen_cons, h, Bool.false_and]

theorem rule2_not_rule1 {l : List Char} (h : matchRule2L l = true) :
    matchRule1L l = false := by
  rcases hq : qualOf l with _ | ⟨q0, r0⟩
  · rw [matchRule2L, hq] at h
    simp at h
  · obtain ⟨hmem, hl⟩ := qualOf_eq_some hq
    simp only [dateQualifiers, List.mem_cons, List.not_mem_nil, or_false] at hmem
    rw [matchRule1L]
    rcases hmem with rfl | rfl | rfl | rfl | rfl <;>
      rw [hl] <;> exact matchRule1Gen_head_not_dig _ (by decide)

theorem rule3_not_rule1 {l : List Char} (h : matchRule3L l = true) :
    matchRule1L l = false := by
  obtain ⟨d4, r, hl, hlen, hdig⟩ := matchRule3L_iff.mp h
  subst hl
  rcases d4 with _ | ⟨a, _ | ⟨b, _ | ⟨c, _ | ⟨d, rest⟩⟩⟩⟩ <;> simp at hlen
  subst hlen
  rw [matchRule1L]
  simp only [List.cons_append, List.nil_append]
  rw [matchRule1Gen_cons]
  have hb : rule1TailGen isWordCh (b :: c :: d :: r) = false :=
    rule1TailGen_head_not_ws _ (dig_not_ws (hdig b (by simp)))
  have hc : rule1TailGen isWordCh (c :: d :: r) = false :=
    rule1TailGen_head_not_ws _ (dig_not_ws (hdig c (by simp)))
  simp [hb, hc]

theorem rule3_not_rule2 {l : List Char} (h : matchRule3L l = true) :
    matchRule2L l = false := by
  obtain ⟨d4, r, hl, hlen, hdig⟩ := matchRule3L_iff.mp h
  subst hl
  rcases d4 with _ | ⟨a, _ | ⟨b, _ | ⟨c, _ | ⟨d, rest⟩⟩⟩⟩ <;> simp at hlen
  subst hlen
  have hq : qualOf ('a' :: []) = none := rfl
  have ha := hdig a (by simp)
  have hb := hdig b (by simp)
  have hc := hdig c (by simp)
  rw [matchRule2L]
  simp only [List.cons_append, List.nil_append]
  rw [qualOf,
    if_neg (by rintro ⟨rfl, rfl, rfl⟩; exact absurd ha (by decide)),
    if_neg (by rintro ⟨rfl, rfl, rfl⟩; exact absurd ha (by decide)),
    if_neg (by rintro ⟨rfl, rfl, rfl⟩; exact absurd ha (by decide)),
    if_neg (by rintro ⟨rfl, rfl, rfl⟩; exact absurd ha (by decide)),
    if_neg (by rintro ⟨rfl, rfl, rfl⟩; exact absurd ha (by decide))]

/-! ## The first whitespace-separated token under a rule-2 match -/

theorem qual_chars {q : String} (hq : q ∈ dateQualifiers) :
    q.toList ≠ [] ∧ ∀ c ∈ q.toList, isWsCh c = false := by
  simp only [dateQualifiers, List.mem_cons, List.not_mem_nil, or_false] at hq
  rcases hq with rfl | rfl | rfl | rfl | rfl <;> exact ⟨by decide, by decide⟩

theorem firstTok_of_qual {s q : String} {w rest : List Char}
    (hq : q ∈ dateQualifiers) (h : s.toList = q.toList ++ w ++ rest)
    (hw : WsBlock w) : firstTok s = q := by
  obtain ⟨hne, hnws⟩ := qual_chars hq
  obtain ⟨hwne, hwall⟩ := hw
  rcases hwl : w with _ | ⟨w1, wtl⟩
  · exact absurd hwl hwne
  subst hwl
  have h' : s.toList = q.toList ++ (w1 :: (wtl ++ rest)) := by
    rw [h]
    simp [List.append_assoc]
  have hd : (s.toList).dropWhile isWsCh = s.toList := by
    rcases hql : q.toList with _ | ⟨c1, tl⟩
    · exact absurd hql hne
    conv_lhs => rw [h', hql, List.cons_append]
    rw [dropWhile_cons_neg _ (hnws c1 (by rw [hql]; simp)), ← List.cons_append,
      ← hql, ← h']
  have ht : (s.toList).takeWhile (fun c => !isWsCh c) = q.toList := by
    rw [h', takeWhile_append_all _ (fun x hx => by simp [hnws x hx]),
        takeWhile_cons_neg _ (by simp [hwall w1 (by simp)]), List.append_nil]
  rw [firstTok, hd, ht]
  exact String.ext rfl

/-! ## Behaviour of `anonymize_date` -/

theorem anonymize_date_keep {st : GedcomAnonymizer} (d : String)
    (hkd : st.keep_dates = true) : anonymize_date st d = d := by
  rw [anonymize_date, hkd, if_pos rfl]

theorem anonymize_date_rule1 {st : GedcomAnonymizer} {d : String}
    (hkd : st.keep_dates = false) (h : matchRule1L d.toList = true) :
    anonymize_date st d = "1 JAN 1900" := by
  rw [anonymize_date, hkd, if_neg (by simp), if_pos h]

theorem anonymize_date_rule2 {st : GedcomAnonymizer} {d : String}
    (hkd : st.keep_dates = false) (h : matchRule2L d.toList = true) :
    anonymize_date st d = firstTok d ++ " 1900" := by
  rw [anonymize_date, hkd, if_neg (by simp),
      if_neg (by simpa using rule2_not_rule1 h), if_pos h]

theorem anonymize_date_rule3 {st : GedcomAnonymizer} {d : String}
    (hkd : st.keep_dates = false) (h : matchRule3L d.toList = true) :
    anonymize_date st d = "1900" := by
  rw [anonymize_date, hkd, if_neg (by simp),
      if_neg (by simpa using rule3_not_rule1 h),
      if_neg (by simpa using rule3_not_rule2 h), if_pos h]

theorem anonymize_date_rule4 {st : GedcomAnonymizer} {d : String}
    (hkd : st.keep_dates = false) (h1 : matchRule1L d.toList = false)
    (h2 : matchRule2L d.toList = false) (h3 : matchRule3L d.toList = false) :
    anonymize_date st d = d := by
  rw [anonymize_date, hkd, if_neg (by simp), if_neg (by simpa using h1),
      if_neg (by simpa using h2), if_neg (by simpa using h3)]

/-! ## Behaviour of `anonymize_name` / `anonymize_place` -/

theorem anonymize_name_fields (st : GedcomAnonymizer) (v : String) :
    (anonymize_name st v).2.place_map = st.place_map ∧
    (anonymize_name st v).2.keep_dates = st.keep_dates ∧
    (anonymize_name st v).2.keep_places = st.keep_places ∧
    (anonymize_name st v).2.place_counter = st.place_counter := by
  rw [anonymize_name]
  rcases lookupV st.name_map v with _ | p <;> exact ⟨rfl, rfl, rfl, rfl⟩

theorem anonymize_name_maps (st : GedcomAnonymizer) (v : String) :
    ((anonymize_name st v).2.name_map, (anonymize_name st v).2.person_counter)
      = insPh personPh st.name_map st.person_counter v := by
  rw [anonymize_name, insPh]
  rcases lookupV st.name_map v with _ | p <;> rfl

theorem anonymize_name_lookup (st : GedcomAnonymizer) (v : String) :
    lookupV (anonymize_name st v).2.name_map v = some (anonymize_name st v).1 := by
  rw [anonymize_name]
  rcases hl : lookupV st.name_map v with _ | p
  · show lookupV (st.name_map ++ [(v, personPh st.person_counter)]) v = _
    rw [lookupV_append_none hl, lookupV, if_pos rfl]
  · exact hl

theorem anonymize_place_keep (st : GedcomAnonymizer) (v : String)
    (h : st.keep_places = true) : anonymize_place st v = (v, st) := by
  rw [anonymize_place, h, if_pos rfl]

theorem anonymize_place_fields (st : GedcomAnonymizer) (v : String) :
    (anonymize_place st v).2.name_map = st.name_map ∧
    (anonymize_place st v).2.keep_dates = st.keep_dates ∧
    (anonymize_place st v).2.keep_places = st.keep_places ∧
    (anonymize_place st v).2.person_counter = st.person_counter := by
  rw [anonymize_place]
  by_cases h : st.keep_places = true
  · rw [if_pos h]
    exact ⟨rfl, rfl, rfl, rfl⟩
  · rw [if_neg h]
    rcases lookupV st.place_map v with _ | p <;> exact ⟨rfl, rfl, rfl, rfl⟩

theorem anonymize_place_maps (st : GedcomAnonymizer) (v : String)
    (hkp : st.keep_places = false) :
    ((anonymize_place st v).2.place_map, (anonymize_place st v).2.place_counter)
      = insPh placePh st.place_map st.place_counter v := by
  rw [anonymize_place, hkp, if_neg (by simp), insPh]
  rcases lookupV st.place_map v with _ | p <;> rfl

theorem anonymize_place_lookup (st : GedcomAnonymizer) (v : String)
    (hkp : st.keep_places = false) :
    lookupV (anonymize_place st v).2.place_map v
      = some (anonymize_place st v).1 := by
  rw [anonymize_place, hkp, if_neg (by simp)]
  rcases hl : lookupV st.place_map v with _ | p
  · show lookupV (st.place_map ++ [(v, placePh st.place_counter)]) v = _
    rw [lookupV_append_none hl, lookupV, if_pos rfl]
  · exact hl

/-! ## Branch structure of `anonymize_line` -/

theorem anonymize_line_none {st : GedcomAnonymizer} {l : String}
    (h : decompose (stripBOM l) = none) :
    anonymize_line st l = (stripBOM l, st) := by
  rw [anonymize_line, h]

/-- Unfolding of `anonymize_line` on a decomposable line, with the pair-destructuring
of the NAME/PLAC branches resolved. -/
theorem anonymize_line_cases {st : GedcomAnonymizer} {l : String} {d : DLine}
    (h : decompose (stripBOM l) = some d) :
    anonymize_line st l =
      if d.tag = "NAME" then
        (buildBase d ++ " " ++ (anonymize_name st d.value).1,
         (anonymize_name st d.value).2)
      else if d.tag = "PLAC" then
        (buildBase d ++ " " ++ (anonymize_place st d.value).1,
         (anonymize_place st d.value).2)
      else if d.tag = "DATE" then
        (buildBase d ++ " " ++ anonymize_date st d.value, st)
      else if d.tag ∈ textTags then
        (if pyStrip d.value ≠ "" then buildBase d ++ " [anonymized text]"
         else buildBase d, st)
      else if d.tag ∈ namePartTags then
        (if pyStrip d.value ≠ "" then buildBase d ++ " [anonymized]"
         else buildBase d, st)
      else if d.tag ∈ addrTags then
        (if pyStrip d.value ≠ "" then buildBase d ++ " [anonymized]"
         else buildBase d, st)
      else if d.tag ∈ contactTags then
        (if pyStrip d.value ≠ "" then buildBase d ++ " [anonymized]"
         else buildBase d, st)
      else if d.tag = "TITL" ∧ d.level = "1" then
        (if pyStrip d.value ≠ "" then buildBase d ++ " [anonymized]"
         else buildBase d, st)
      else
        (if d.value ≠ "" then buildBase d ++ " " ++ d.value
         else buildBase d, st) := by
  rw [anonymize_line, h]

/-! ## State effects of one line -/

set_option maxHeartbeats 1000000 in
theorem anonymize_line_flags (st : GedcomAnonymizer) (l : String) :
    (anonymize_line st l).2.keep_dates = st.keep_dates ∧
    (anonymize_line st l).2.keep_places = st.keep_places := by
  rcases hd : decompose (stripBOM l) with _ | d
  · rw [anonymize_line_none hd]
    exact ⟨rfl, rfl⟩
  · rw [anonymize_line_cases hd]
    split_ifs <;> dsimp only
    · exact ⟨(anonymize_name_fields st d.value).2.1,
        (anonymize_name_fields st d.value).2.2.1⟩
    · exact ⟨(anonymize_place_fields st d.value).2.1,
        (anonymize_place_fields st d.value).2.2.1⟩
    all_goals exact ⟨rfl, rfl⟩

set_option maxHeartbeats 1000000 in
theorem anonymize_line_name_effect (st : GedcomAnonymizer) (l : String) :
    ((anonymize_line st l).2.name_map, (anonymize_line st l).2.person_counter)
      = match decompose (stripBOM l) with
        | some d =>
          if d.tag = "NAME" then insPh personPh st.name_map st.person_counter d.value
          else (st.name_map, st.person_counter)
        | none => (st.name_map, st.person_counter) := by
  rcases hd : decompose (stripBOM l) with _ | d
  · rw [anonymize_line_none hd]
  · rw [anonymize_line_cases hd]
    dsimp only
    by_cases ht : d.tag = "NAME"
    · rw [if_pos ht, if_pos ht]
      exact anonymize_name_maps st d.value
    · rw [if_neg ht, if_neg ht]
      split_ifs <;> dsimp only
      · rw [(anonymize_place_fields st d.value).1,
          (anonymize_place_fields st d.value).2.2.2]

set_option maxHeartbeats 1000000 in
theorem anonymize_line_place_effect (st : GedcomAnonymizer) (l : String) :
    ((anonymize_line st l).2.place_map, (anonymize_line st l).2.place_counter)
      = if st.keep_places = true then (st.place_map, st.place_counter)
        else
          match decompose (stripBOM l) with
          | some d =>
            if d.tag = "PLAC" then
              insPh placePh st.place_map st.place_counter d.value
            else (st.place_map, st.place_counter)
          | none => (st.place_map, st.place_counter) := by
  by_cases hkp : st.keep_places = true
  · rw [if_pos hkp]
    rcases hd : decompose (stripBOM l) with _ | d
    · rw [anonymize_line_none hd]
    · rw [anonymize_line_cases hd]
      split_ifs <;> dsimp only
      all_goals first
        | rfl
        | (rw [(anonymize_name_fields st d.value).1,
               (anonymize_name_fields st d.value).2.2.2])
        | (simp [anonymize_place_keep st d.value hkp])
  · rw [if_neg hkp]
    have hkp' : st.keep_places = false := by
      cases h : st.keep_places with
      | false => rfl
      | true => exact absurd h hkp
    rcases hd : decompose (stripBOM l) with _ | d
    · rw [anonymize_line_none hd]
    · rw [anonymize_line_cases hd]
      dsimp only
      by_cases ht : d.tag = "PLAC"
      · have hn : ¬ d.tag = "NAME" := by rw [ht]; decide
        simp only [if_neg hn, if_pos ht]
        exact anonymize_place_maps st d.value hkp'
      · simp only [if_neg ht]
        split_ifs <;> dsimp only
        all_goals first
          | rfl
          | (rw [(anonymize_name_fields st d.value).1,
                 (anonymize_name_fields st d.value).2.2.2])

/-! ## The per-document loop -/

theorem anonymize_lines_cons (st : GedcomAnonymizer) (l : String)
    (ls : List String) :
    anonymize_lines st (l :: ls) =
      if pyStrip (rstripNlCr l) = "" then
        (rstripNlCr l :: (anonymize_lines st ls).1, (anonymize_lines st ls).2)
      else
        ((anonymize_line st (rstripNlCr l)).1 ::
           (anonymize_lines (anonymize_line st (rstripNlCr l)).2 ls).1,
         (anonymize_lines (anonymize_line st (rstripNlCr l)).2 ls).2) := by
  rw [anonymize_lines]

theorem anonymize_lines_length (st : GedcomAnonymizer) (ls : List String) :
    (anonymize_lines st ls).1.length = ls.length := by
  induction ls generalizing st with
  | nil => rfl
  | cons l ls ih =>
    rw [anonymize_lines_cons]
    split_ifs <;> simp [ih]

theorem anonymize_lines_flags (st : GedcomAnonymizer) (ls : List String) :
    (anonymize_lines st ls).2.keep_dates = st.keep_dates ∧
    (anonymize_lines st ls).2.keep_places = st.keep_places := by
  induction ls generalizing st with
  | nil => exact ⟨rfl, rfl⟩
  | cons l ls ih =>
    rw [anonymize_lines_cons]
    split_ifs
    · exact ih st
    · refine ⟨?_, ?_⟩
      · rw [(ih _).1, (anonymize_line_flags st (rstripNlCr l)).1]
      · rw [(ih _).2, (anonymize_line_flags st (rstripNlCr l)).2]

theorem anonymize_lines_name_fold (st : GedcomAnonymizer) (ls : List String) :
    ((anonymize_lines st ls).2.name_map, (anonymize_lines st ls).2.person_counter)
      = foldIns personPh (st.name_map, st.person_counter) (nameVals ls) := by
  induction ls generalizing st with
  | nil => rfl
  | cons l ls ih =>
    rw [anonymize_lines_cons]
    by_cases hb : pyStrip (rstripNlCr l) = ""
    · rw [if_pos hb]
      dsimp only
      have hlv : lineNameVal l = none := by rw [lineNameVal, if_pos hb]
      rw [nameVals, List.filterMap_cons, hlv, ← nameVals]
      exact ih st
    · rw [if_neg hb]
      dsimp only
      have heff := anonymize_line_name_effect st (rstripNlCr l)
      rcases hd : decompose (stripBOM (rstripNlCr l)) with _ | d
      · rw [hd] at heff
        dsimp only at heff
        have hlv : lineNameVal l = none := by rw [lineNameVal, if_neg hb, hd]
        rw [nameVals, List.filterMap_cons, hlv, ← nameVals, ih, heff]
      · rw [hd] at heff
        dsimp only at heff
        by_cases ht : d.tag = "NAME"
        · rw [if_pos ht] at heff
          have hlv : lineNameVal l = some d.value := by
            rw [lineNameVal, if_neg hb, hd]
            dsimp only
            rw [if_pos ht]
          rw [nameVals, List.filterMap_cons, hlv, ← nameVals, foldIns, ih, heff]
        · rw [if_neg ht] at heff
          have hlv : lineNameVal l = none := by
            rw [lineNameVal, if_neg hb, hd]
            dsimp only
            rw [if_neg ht]
          rw [nameVals, List.filterMap_cons, hlv, ← nameVals, ih, heff]

theorem anonymize_lines_place_fold (st : GedcomAnonymizer) (ls : List String)
    (hkp : st.keep_places = false) :
    ((anonymize_lines st ls).2.place_map, (anonymize_lines st ls).2.place_counter)
      = foldIns placePh (st.place_map, st.place_counter) (placeVals ls) := by
  induction ls generalizing st with
  | nil => rfl
  | cons l ls ih =>
    rw [anonymize_lines_cons]
    by_cases hb : pyStrip (rstripNlCr l) = ""
    · rw [if_pos hb]
      dsimp only
      have hlv : linePlaceVal l = none := by rw [linePlaceVal, if_pos hb]
      rw [placeVals, List.filterMap_cons, hlv, ← placeVals]
      exact ih st hkp
    · rw [if_neg hb]
      dsimp only
      have heff := anonymize_line_place_effect st (rstripNlCr l)
      rw [if_neg (by simp [hkp])] at heff
      have hkp1 : (anonymize_line st (rstripNlCr l)).2.keep_places = false := by
        rw [(anonymize_line_flags st (rstripNlCr l)).2, hkp]
      rcases hd : decompose (stripBOM (rstripNlCr l)) with _ | d
      · rw [hd] at heff
        dsimp only at heff
        have hlv : linePlaceVal l = none := by rw [linePlaceVal, if_neg hb, hd]
        rw [placeVals, List.filterMap_cons, hlv, ← placeVals, ih _ hkp1, heff]
      · rw [hd] at heff
        dsimp only at heff
        by_cases ht : d.tag = "PLAC"
        · rw [if_pos ht] at heff
          have hlv : linePlaceVal l = some d.value := by
            rw [linePlaceVal, if_neg hb, hd]
            dsimp only
            rw [if_pos ht]
          rw [placeVals, List.filterMap_cons, hlv, ← placeVals, foldIns,
            ih _ hkp1, heff]
        · rw [if_neg ht] at heff
          have hlv : linePlaceVal l = none := by
            rw [linePlaceVal, if_neg hb, hd]
            dsimp only
            rw [if_neg ht]
          rw [placeVals, List.filterMap_cons, hlv, ← placeVals, ih _ hkp1, heff]

theorem anonymize_lines_place_keep (st : GedcomAnonymizer) (ls : List String)
    (hkp : st.keep_places = true) :
    (anonymize_lines st ls).2.place_map = st.place_map ∧
    (anonymize_lines st ls).2.place_counter = st.place_counter := by
  induction ls generalizing st with
  | nil => exact ⟨rfl, rfl⟩
  | cons l ls ih =>
    rw [anonymize_lines_cons]
    by_cases hb : pyStrip (rstripNlCr l) = ""
    · rw [if_pos hb]
      exact ih st hkp
    · rw [if_neg hb]
      dsimp only
      have heff := anonymize_line_place_effect st (rstripNlCr l)
      rw [if_pos hkp] at heff
      have hkp1 : (anonymize_line st (rstripNlCr l)).2.keep_places = true := by
        rw [(anonymize_line_flags st (rstripNlCr l)).2, hkp]
      obtain ⟨i1, i2⟩ := ih ((anonymize_line st (rstripNlCr l)).2) hkp1
      have h1 := congrArg Prod.fst heff
      have h2 := congrArg Prod.snd heff
      dsimp only at h1 h2
      exact ⟨by rw [i1, h1], by rw [i2, h2]⟩

/-! ## The canonical shape of the identity maps -/

theorem numbered_append (ph : Nat → String) (c : Nat) (ds : List String)
    (v : String) :
    numbered ph c (ds ++ [v]) = numbered ph c ds ++ [(v, ph (c + ds.length))] := by
  induction ds generalizing c with
  | nil => simp [numbered]
  | cons d dsl ih =>
    rw [List.cons_append, numbered, numbered, ih (c + 1), List.cons_append,
      List.length_cons]
    have he : c + 1 + dsl.length = c + (dsl.length + 1) := by omega
    rw [he]

theorem lookupV_numbered_none {ph : Nat → String} {ds : List String}
    {v : String} (h : v ∉ ds) :
    ∀ c, lookupV (numbered ph c ds) v = none := by
  induction ds with
  | nil => intro c; rfl
  | cons d dsl ih =>
    intro c
    rw [numbered, lookupV, if_neg (by
      intro he
      exact h (by rw [he]; simp))]
    exact ih (fun hm => h (by simp [hm])) (c + 1)

theorem lookupV_numbered_mem {ph : Nat → String} {ds : List String}
    {v : String} (h : v ∈ ds) :
    ∀ c, (lookupV (numbered ph c ds) v).isSome = true := by
  induction ds with
  | nil => simp at h
  | cons d dsl ih =>
    intro c
    rw [numbered, lookupV]
    by_cases hd : d = v
    · rw [if_pos hd]
      rfl
    · rw [if_neg hd]
      rcases List.mem_cons.mp h with he | hm
      · exact absurd he.symm hd
      · exact ih hm (c + 1)

theorem lookupV_numbered_get {ph : Nat → String} {ds : List String}
    (hnd : ds.Nodup) :
    ∀ c n v, ds[n]? = some v →
      lookupV (numbered ph c ds) v = some (ph (c + n)) := by
  induction ds with
  | nil => intro c n v h; simp at h
  | cons d dsl ih =>
    intro c n v h
    rcases n with _ | n
    · have hd : d = v := by simpa using h
      rw [numbered, lookupV, if_pos hd, Nat.add_zero]
    · have hv : dsl[n]? = some v := by simpa using h
      have hmem : v ∈ dsl := by
        have := List.getElem?_eq_some_iff.mp hv
        obtain ⟨hlt, hget⟩ := this
        exact hget ▸ List.getElem_mem hlt
      have hd : d ≠ v := by
        intro he
        exact (List.nodup_cons.mp hnd).1 (he ▸ hmem)
      rw [numbered, lookupV, if_neg hd,
        ih (List.nodup_cons.mp hnd).2 (c + 1) n v hv]
      have he : c + 1 + n = c + (n + 1) := by omega
      rw [he]

theorem lookupV_numbered_some {ph : Nat → String} {ds : List String}
    {v p : String} :
    ∀ c, lookupV (numbered ph c ds) v = some p →
      ∃ n, ds[n]? = some v ∧ p = ph (c + n) := by
  induction ds with
  | nil => intro c h; simp [numbered, lookupV] at h
  | cons d dsl ih =>
    intro c h
    rw [numbered, lookupV] at h
    by_cases hd : d = v
    · rw [if_pos hd] at h
      injection h with h
      refine ⟨0, by simp [hd], ?_⟩
      rw [Nat.add_zero, h]
    · rw [if_neg hd] at h
      obtain ⟨n, h1, h2⟩ := ih (c + 1) h
      refine ⟨n + 1, by simpa using h1, ?_⟩
      rw [h2]
      have he : c + 1 + n = c + (n + 1) := by omega
      rw [he]

/-! ## First-occurrence lists -/

theorem mem_foAux {x : String} :
    ∀ (vs seen : List String), x ∈ foAux seen vs ↔ x ∈ vs ∧ x ∉ seen := by
  intro vs
  induction vs with
  | nil => intro seen; simp [foAux]
  | cons v vs ih =>
    intro seen
    rw [foAux]
    by_cases hv : v ∈ seen
    · rw [if_pos hv, ih]
      simp only [List.mem_cons]
      constructor
      · rintro ⟨h1, h2⟩
        exact ⟨Or.inr h1, h2⟩
      · rintro ⟨h1 | h1, h2⟩
        · exact absurd (h1 ▸ hv) h2
        · exact ⟨h1, h2⟩
    · rw [if_neg hv]
      simp only [List.mem_cons, ih, List.mem_append, List.mem_singleton]
      constructor
      · rintro (rfl | ⟨h1, h2⟩)
        · exact ⟨Or.inl rfl, hv⟩
        · refine ⟨Or.inr h1, fun hx => h2 (Or.inl hx)⟩
      · rintro ⟨h1, h2⟩
        by_cases hxv : x = v
        · exact Or.inl hxv
        · rcases h1 with h1 | h1
          · exact absurd h1 hxv
          · refine Or.inr ⟨h1, fun hx => ?_⟩
            rcases hx with hx | hx
            · exact h2 hx
            · rcases hx with hx | hx
              · exact hxv hx
              · exact absurd hx (List.not_mem_nil x)

theorem foAux_nodup : ∀ (vs seen : List String), (foAux seen vs).Nodup := by
  intro vs
  induction vs with
  | nil => intro seen; simp [foAux]
  | cons v vs ih =>
    intro seen
    rw [foAux]
    by_cases hv : v ∈ seen
    · rw [if_pos hv]
      exact ih seen
    · rw [if_neg hv]
      refine List.nodup_cons.mpr ⟨?_, ih _⟩
      intro hmem
      exact (mem_foAux vs (seen ++ [v])).mp hmem |>.2 (by simp)

theorem firstOccs_nodup (vs : List String) : (firstOccs vs).Nodup :=
  foAux_nodup vs []

theorem mem_firstOccs {x : String} {vs : List String} :
    x ∈ firstOccs vs ↔ x ∈ vs := by
  rw [firstOccs, mem_foAux]
  simp

/-- Folding insert-if-absent over a value sequence extends a canonical
numbered map by exactly the unseen first occurrences. -/
theorem foldIns_numbered (ph : Nat → String) :
    ∀ (vs ds : List String),
      foldIns ph (numbered ph 1 ds, ds.length + 1) vs
        = (numbered ph 1 (ds ++ foAux ds vs), (ds ++ foAux ds vs).length + 1) := by
  intro vs
  induction vs with
  | nil =>
    intro ds
    rw [foldIns, foAux]
    simp
  | cons v vs ih =>
    intro ds
    rw [foldIns, insPh]
    by_cases hm : v ∈ ds
    · rcases hl : lookupV (numbered ph 1 ds) v with _ | p
      · have h2 : (lookupV (numbered ph 1 ds) v).isSome = true :=
          lookupV_numbered_mem hm 1
        rw [hl] at h2
        simp at h2
      · dsimp only
        rw [foAux, if_pos hm]
        exact ih ds
    · rcases hl : lookupV (numbered ph 1 ds) v with _ | p
      · dsimp only
        have hn : numbered ph 1 ds ++ [(v, ph (ds.length + 1))]
            = numbered ph 1 (ds ++ [v]) := by
          rw [numbered_append]
          have he : 1 + ds.length = ds.length + 1 := by omega
          rw [he]
        rw [hn]
        have hlen : ds.length + 1 + 1 = (ds ++ [v]).length + 1 := by
          simp
        rw [hlen, ih (ds ++ [v]), foAux, if_neg hm]
        have hds : ds ++ v :: foAux (ds ++ [v]) vs
            = (ds ++ [v]) ++ foAux (ds ++ [v]) vs := by
          simp
        rw [hds]
      · rw [lookupV_numbered_none hm 1] at hl
        exact absurd hl (by simp)

/-! ## Lookup monotonicity along a run -/

theorem lookupV_insPh {ph : Nat → String} {m : List (String × String)}
    {c : Nat} {v q p : String} (h : lookupV m q = some p) :
    lookupV (insPh ph m c v).1 q = some p := by
  rw [insPh]
  rcases lookupV m v with _ | x
  · exact lookupV_append_some h
  · exact h

theorem lookupV_foldIns {ph : Nat → String} {q p : String} :
    ∀ (vs : List String) (m : List (String × String)) (c : Nat),
      lookupV m q = some p → lookupV (foldIns ph (m, c) vs).1 q = some p := by
  intro vs
  induction vs with
  | nil => intro m c h; exact h
  | cons v vs ih =>
    intro m c h
    rw [foldIns]
    rcases hip : insPh ph m c v with ⟨m', c'⟩
    have h' : lookupV m' q = some p := by
      have h2 := @lookupV_insPh ph m c v q p h
      rw [hip] at h2
      exact h2
    exact ih m' c' h'

theorem anonymize_lines_name_mono {st : GedcomAnonymizer} {ls : List String}
    {q p : String} (h : lookupV st.name_map q = some p) :
    lookupV (anonymize_lines st ls).2.name_map q = some p := by
  have hf := anonymize_lines_name_fold st ls
  have h1 := congrArg Prod.fst hf
  dsimp only at h1
  rw [h1]
  exact lookupV_foldIns (nameVals ls) st.name_map st.person_counter h

theorem anonymize_lines_place_mono {st : GedcomAnonymizer} {ls : List String}
    {q p : String} (h : lookupV st.place_map q = some p) :
    lookupV (anonymize_lines st ls).2.place_map q = some p := by
  by_cases hkp : st.keep_places = true
  · rw [(anonymize_lines_place_keep st ls hkp).1]
    exact h
  · have hkp' : st.keep_places = false := by
      cases hx : st.keep_places with
      | false => rfl
      | true => exact absurd hx hkp
    have hf := anonymize_lines_place_fold st ls hkp'
    have h1 := congrArg Prod.fst hf
    dsimp only at h1
    rw [h1]
    exact lookupV_foldIns (placeVals ls) st.place_map st.place_counter h

/-! ## Outputs by index -/

theorem anonymize_lines_append (st : GedcomAnonymizer) (l1 l2 : List String) :
    anonymize_lines st (l1 ++ l2)
      = ((anonymize_lines st l1).1
           ++ (anonymize_lines (anonymize_lines st l1).2 l2).1,
         (anonymize_lines (anonymize_lines st l1).2 l2).2) := by
  induction l1 generalizing st with
  | nil => simp [anonymize_lines]
  | cons l ls ih =>
    rw [List.cons_append, anonymize_lines_cons, anonymize_lines_cons]
    by_cases hb : pyStrip (rstripNlCr l) = ""
    · rw [if_pos hb, if_pos hb, ih st]
      simp
    · rw [if_neg hb, if_neg hb, ih ((anonymize_line st (rstripNlCr l)).2)]
      simp

theorem anonymize_lines_get? :
    ∀ (ls : List String) (st : GedcomAnonymizer) (i : Nat) (l : String),
      ls[i]? = some l →
      (anonymize_lines st ls).1[i]? =
        some (if pyStrip (rstripNlCr l) = "" then rstripNlCr l
              else (anonymize_line (anonymize_lines st (ls.take i)).2
                      (rstripNlCr l)).1) := by
  intro ls
  induction ls with
  | nil => intro st i l h; simp at h
  | cons l0 ls ih =>
    intro st i l h
    rcases i with _ | i
    · have hl : l0 = l := by simpa using h
      subst hl
      rw [anonymize_lines_cons]
      by_cases hb : pyStrip (rstripNlCr l0) = ""
      · rw [if_pos hb, if_pos hb]
        dsimp only
        rw [List.getElem?_cons_zero]
      · rw [if_neg hb, if_neg hb]
        dsimp only
        rw [List.getElem?_cons_zero]
        rfl
    · have hl : ls[i]? = some l := by simpa using h
      rw [anonymize_lines_cons, List.take_succ_cons, anonymize_lines_cons]
      by_cases hb0 : pyStrip (rstripNlCr l0) = ""
      · rw [if_pos hb0, if_pos hb0]
        dsimp only
        rw [List.getElem?_cons_succ]
        exact ih st i l hl
      · rw [if_neg hb0, if_neg hb0]
        dsimp only
        rw [List.getElem?_cons_succ]
        exact ih ((anonymize_line st (rstripNlCr l0)).2) i l hl

/-! ## `rstrip('\n\r')` is the identity on newline-free bodies -/

theorem dropWhile_all_false {p : Char → Bool} {l : List Char}
    (h : ∀ x ∈ l, p x = false) : l.dropWhile p = l := by
  cases l with
  | nil => rfl
  | cons a l => exact dropWhile_cons_neg l (h a (by simp))

theorem rstripNlCr_eq_self {s : String} (h : hasNlCr s = false) :
    rstripNlCr s = s := by
  have hall : ∀ c ∈ s.toList, (fun c => c = '\n' || c = '\r') c = false := by
    intro c hc
    have := List.any_eq_false.mp h c hc
    simpa using this
  rw [rstripNlCr, rstripNlCrL,
    dropWhile_all_false (fun x hx => hall x (List.mem_reverse.mp hx)),
    List.reverse_reverse]
  exact String.ext rfl

/-! ## The engine invariant -/

theorem insPh_inv {ph : Nat → String} {m : List (String × String)} {c : Nat}
    (v : String) (h1 : c = m.length + 1)
    (h2 : m.map Prod.snd = (List.range m.length).map fun i => ph (i + 1)) :
    (insPh ph m c v).2 = (insPh ph m c v).1.length + 1 ∧
    (insPh ph m c v).1.map Prod.snd
      = (List.range (insPh ph m c v).1.length).map fun i => ph (i + 1) := by
  rw [insPh]
  rcases lookupV m v with _ | p
  · dsimp only
    refine ⟨by simp [h1], ?_⟩
    rw [List.map_append, h2, List.length_append]
    simp [List.range_succ, h1]
  · exact ⟨h1, h2⟩

theorem insPh_mono {ph : Nat → String} {m : List (String × String)} {c : Nat}
    (v : String) :
    m.length ≤ (insPh ph m c v).1.length ∧ c ≤ (insPh ph m c v).2 := by
  rw [insPh]
  rcases lookupV m v with _ | p
  · exact ⟨by simp, by simp⟩
  · exact ⟨Nat.le_refl _, Nat.le_refl _⟩

theorem anonymize_line_name_effect_cases (st : GedcomAnonymizer) (l : String) :
    ((anonymize_line st l).2.name_map, (anonymize_line st l).2.person_counter)
        = (st.name_map, st.person_counter) ∨
    ∃ v, ((anonymize_line st l).2.name_map,
          (anonymize_line st l).2.person_counter)
        = insPh personPh st.name_map st.person_counter v := by
  have heff := anonymize_line_name_effect st l
  rcases hd : decompose (stripBOM l) with _ | d
  · rw [hd] at heff
    exact Or.inl heff
  · rw [hd] at heff
    dsimp only at heff
    by_cases ht : d.tag = "NAME"
    · rw [if_pos ht] at heff
      exact Or.inr ⟨d.value, heff⟩
    · rw [if_neg ht] at heff
      exact Or.inl heff

theorem anonymize_line_place_effect_cases (st : GedcomAnonymizer) (l : String) :
    ((anonymize_line st l).2.place_map, (anonymize_line st l).2.place_counter)
        = (st.place_map, st.place_counter) ∨
    ∃ v, ((anonymize_line st l).2.place_map,
          (anonymize_line st l).2.place_counter)
        = insPh placePh st.place_map st.place_counter v := by
  have heff := anonymize_line_place_effect st l
  by_cases hkp : st.keep_places = true
  · rw [if_pos hkp] at heff
    exact Or.inl heff
  · rw [if_neg hkp] at heff
    rcases hd : decompose (stripBOM l) with _ | d
    · rw [hd] at heff
      exact Or.inl heff
    · rw [hd] at heff
      dsimp only at heff
      by_cases ht : d.tag = "PLAC"
      · rw [if_pos ht] at heff
        exact Or.inr ⟨d.value, heff⟩
      · rw [if_neg ht] at heff
        exact Or.inl heff

theorem engineInv_init (kd kp : Bool) : EngineInv (GedcomAnonymizer.init kd kp) :=
  ⟨rfl, rfl, rfl, rfl⟩

theorem engineInv_step {st : GedcomAnonymizer} (l : String)
    (h : EngineInv st) : EngineInv (anonymize_line st l).2 := by
  obtain ⟨h1, h2, h3, h4⟩ := h
  have hn := anonymize_line_name_effect_cases st l
  have hp := anonymize_line_place_effect_cases st l
  have hn' : (anonymize_line st l).2.name_map = st.name_map ∧
      (anonymize_line st l).2.person_counter = st.person_counter ∨
      ∃ v, (anonymize_line st l).2.name_map = (insPh personPh st.name_map st.person_counter v).1 ∧
        (anonymize_line st l).2.person_counter = (insPh personPh st.name_map st.person_counter v).2 := by
    rcases hn with hn | ⟨v, hn⟩
    · have e1 := congrArg Prod.fst hn
      have e2 := congrArg Prod.snd hn
      dsimp only at e1 e2
      exact Or.inl ⟨e1, e2⟩
    · have e1 := congrArg Prod.fst hn
      have e2 := congrArg Prod.snd hn
      dsimp only at e1 e2
      exact Or.inr ⟨v, e1, e2⟩
  have hp' : (anonymize_line st l).2.place_map = st.place_map ∧
      (anonymize_line st l).2.place_counter = st.place_counter ∨
      ∃ v, (anonymize_line st l).2.place_map = (insPh placePh st.place_map st.place_counter v).1 ∧
        (anonymize_line st l).2.place_counter = (insPh placePh st.place_map st.place_counter v).2 := by
    rcases hp with hp | ⟨v, hp⟩
    · have e1 := congrArg Prod.fst hp
      have e2 := congrArg Prod.snd hp
      dsimp only at e1 e2
      exact Or.inl ⟨e1, e2⟩
    · have e1 := congrArg Prod.fst hp
      have e2 := congrArg Prod.snd hp
      dsimp only at e1 e2
      exact Or.inr ⟨v, e1, e2⟩
  refine ⟨?_, ?_, ?_, ?_⟩
  · rcases hn' with ⟨e1, e2⟩ | ⟨v, e1, e2⟩
    · rw [e1, e2]
      exact h1
    · rw [e1, e2]
      exact (insPh_inv v h1 h2).1
  · rcases hn' with ⟨e1, e2⟩ | ⟨v, e1, e2⟩
    · rw [e1]
      exact h2
    · rw [e1]
      exact (insPh_inv v h1 h2).2
  · rcases hp' with ⟨e1, e2⟩ | ⟨v, e1, e2⟩
    · rw [e1, e2]
      exact h3
    · rw [e1, e2]
      exact (insPh_inv v h3 h4).1
  · rcases hp' with ⟨e1, e2⟩ | ⟨v, e1, e2⟩
    · rw [e1]
      exact h4
    · rw [e1]
      exact (insPh_inv v h3 h4).2

theorem anonymize_line_mono (st : GedcomAnonymizer) (l : String) :
    st.name_map.length ≤ (anonymize_line st l).2.name_map.length ∧
    st.person_counter ≤ (anonymize_line st l).2.person_counter ∧
    st.place_map.length ≤ (anonymize_line st l).2.place_map.length ∧
    st.place_counter ≤ (anonymize_line st l).2.place_counter := by
  have hn := anonymize_line_name_effect_cases st l
  have hp := anonymize_line_place_effect_cases st l
  refine ⟨?_, ?_, ?_, ?_⟩
  · rcases hn with hn | ⟨v, hn⟩
    · have e1 := congrArg Prod.fst hn
      dsimp only at e1
      rw [e1]
    · have e1 := congrArg Prod.fst hn
      dsimp only at e1
      rw [e1]
      exact (insPh_mono v).1
  · rcases hn with hn | ⟨v, hn⟩
    · have e2 := congrArg Prod.snd hn
      dsimp only at e2
      rw [e2]
    · have e2 := congrArg Prod.snd hn
      dsimp only at e2
      rw [e2]
      exact (insPh_mono v).2
  · rcases hp with hp | ⟨v, hp⟩
    · have e1 := congrArg Prod.fst hp
      dsimp only at e1
      rw [e1]
    · have e1 := congrArg Prod.fst hp
      dsimp only at e1
      rw [e1]
      exact (insPh_mono v).1
  · rcases hp with hp | ⟨v, hp⟩
    · have e2 := congrArg Prod.snd hp
      dsimp only at e2
      rw [e2]
    · have e2 := congrArg Prod.snd hp
      dsimp only at e2
      rw [e2]
      exact (insPh_mono v).2

/-! ## Final-run characterization of the identity maps -/

theorem anonymize_file_name_pair (kd kp : Bool) (doc : List String) :
    ((anonymize_file kd kp doc).2.name_map,
     (anonymize_file kd kp doc).2.person_counter)
      = (numbered personPh 1 (firstOccs (nameVals doc)),
         (firstOccs (nameVals doc)).length + 1) := by
  rw [anonymize_file, anonymize_lines_name_fold]
  calc foldIns personPh ((GedcomAnonymizer.init kd kp).name_map,
          (GedcomAnonymizer.init kd kp).person_counter) (nameVals doc)
      = foldIns personPh (numbered personPh 1 [], ([] : List String).length + 1)
          (nameVals doc) := rfl
    _ = (numbered personPh 1 ([] ++ foAux [] (nameVals doc)),
         ([] ++ foAux [] (nameVals doc)).length + 1) :=
        foldIns_numbered personPh (nameVals doc) []
    _ = (numbered personPh 1 (firstOccs (nameVals doc)),
         (firstOccs (nameVals doc)).length + 1) := by
        rw [List.nil_append]
        rfl

theorem anonymize_file_place_pair (kd : Bool) (doc : List String) :
    ((anonymize_file kd false doc).2.place_map,
     (anonymize_file kd false doc).2.place_counter)
      = (numbered placePh 1 (firstOccs (placeVals doc)),
         (firstOccs (placeVals doc)).length + 1) := by
  rw [anonymize_file, anonymize_lines_place_fold _ _ rfl]
  calc foldIns placePh ((GedcomAnonymizer.init kd false).place_map,
          (GedcomAnonymizer.init kd false).place_counter) (placeVals doc)
      = foldIns placePh (numbered placePh 1 [], ([] : List String).length + 1)
          (placeVals doc) := rfl
    _ = (numbered placePh 1 ([] ++ foAux [] (placeVals doc)),
         ([] ++ foAux [] (placeVals doc)).length + 1) :=
        foldIns_numbered placePh (placeVals doc) []
    _ = (numbered placePh 1 (firstOccs (placeVals doc)),
         (firstOccs (placeVals doc)).length + 1) := by
        rw [List.nil_append]
        rfl

/-! ## Output of a NAME / PLAC line within a run -/

theorem final_state_split {st : GedcomAnonymizer} {doc : List String} {i : Nat}
    {l : String} (h : doc[i]? = some l)
    (hb : ¬ pyStrip (rstripNlCr l) = "") :
    (anonymize_lines st doc).2
      = (anonymize_lines
          (anonymize_line (anonymize_lines st (doc.take i)).2 (rstripNlCr l)).2
          (doc.drop (i + 1))).2 := by
  obtain ⟨hlt, hget⟩ := List.getElem?_eq_some_iff.mp h
  have hdoc : doc = doc.take i ++ l :: doc.drop (i + 1) := by
    conv_lhs => rw [← List.take_append_drop i doc]
    rw [List.drop_eq_getElem_cons hlt, hget]
  conv_lhs => rw [hdoc]
  rw [anonymize_lines_append]
  dsimp only
  rw [anonymize_lines_cons, if_neg hb]

theorem nameLine_output {st : GedcomAnonymizer} {doc : List String} {i : Nat}
    {l : String} {d : DLine} (h : doc[i]? = some l)
    (hb : ¬ pyStrip (rstripNlCr l) = "")
    (hd : decompose (stripBOM (rstripNlCr l)) = some d)
    (ht : d.tag = "NAME") :
    ∃ p, lookupV (anonymize_lines st doc).2.name_map d.value = some p ∧
      (anonymize_lines st doc).1[i]? = some (buildBase d ++ " " ++ p) := by
  have hout := anonymize_lines_get? doc st i l h
  rw [if_neg hb, anonymize_line_cases hd, if_pos ht] at hout
  dsimp only at hout
  refine ⟨(anonymize_name (anonymize_lines st (doc.take i)).2 d.value).1,
    ?_, hout⟩
  have hstep : (anonymize_line (anonymize_lines st (doc.take i)).2
      (rstripNlCr l)).2
      = (anonymize_name (anonymize_lines st (doc.take i)).2 d.value).2 := by
    rw [anonymize_line_cases hd, if_pos ht]
  rw [final_state_split h hb, hstep]
  exact anonymize_lines_name_mono (anonymize_name_lookup _ d.value)

theorem placeLine_output {st : GedcomAnonymizer} {doc : List String} {i : Nat}
    {l : String} {d : DLine} (hkp : st.keep_places = false)
    (h : doc[i]? = some l) (hb : ¬ pyStrip (rstripNlCr l) = "")
    (hd : decompose (stripBOM (rstripNlCr l)) = some d)
    (ht : d.tag = "PLAC") :
    ∃ p, lookupV (anonymize_lines st doc).2.place_map d.value = some p ∧
      (anonymize_lines st doc).1[i]? = some (buildBase d ++ " " ++ p) := by
  have hkpi : (anonymize_lines st (doc.take i)).2.keep_places = false := by
    rw [(anonymize_lines_flags st (doc.take i)).2, hkp]
  have hn : ¬ d.tag = "NAME" := by rw [ht]; decide
  have hout := anonymize_lines_get? doc st i l h
  rw [if_neg hb, anonymize_line_cases hd, if_neg hn, if_pos ht] at hout
  dsimp only at hout
  refine ⟨(anonymize_place (anonymize_lines st (doc.take i)).2 d.value).1,
    ?_, hout⟩
  have hstep : (anonymize_line (anonymize_lines st (doc.take i)).2
      (rstripNlCr l)).2
      = (anonymize_place (anonymize_lines st (doc.take i)).2 d.value).2 := by
    rw [anonymize_line_cases hd, if_neg hn, if_pos ht]
  rw [final_state_split h hb, hstep]
  exact anonymize_lines_place_mono (anonymize_place_lookup _ d.value hkpi)

theorem base_append_ne (b s : String) : b ++ " " ++ s ≠ b := by
  intro h
  have hlen := congrArg String.length h
  rw [String.length_append, String.length_append] at hlen
  have h1 : (" " : String).length = 1 := rfl
  omega

/-! ## Claims -/

/-- C7 counterexample: the line `"﻿abc def"` (a stray byte-order
mark followed by text) fails the structural grammar, yet line
processing returns `"abc def"`, not the original line text: the BOM has
been stripped, so the claim "returns the original line text unmodified"
is false as stated. -/
theorem c7_bom_cex :
    decompose "﻿abc def" = none
    ∧ (anonymize_line (GedcomAnonymizer.init false false) "﻿abc def").1
        = "abc def"
    ∧ ("abc def" : String) ≠ "﻿abc def" := by
  decide

/-- C7 (as amended): for every input line that does not match the
structural grammar, line processing returns the line text unmodified
*except that a leading byte-order mark, if present, is stripped*, with
the engine state untouched and tag dispatch bypassed; in particular a
line without a BOM is returned verbatim. -/
theorem c7_malformed_passthrough (st : GedcomAnonymizer) (l : String)
    (h : decompose (stripBOM l) = none) :
    anonymize_line st l = (stripBOM l, st)
    ∧ (stripBOM l = l → anonymize_line st l = (l, st)) :=
  ⟨anonymize_line_none h, fun he => by rw [anonymize_line_none h, he]⟩

theorem c7_malformed_passthrough_witness :
    anonymize_line (GedcomAnonymizer.init false false) "@@@"
      = ("@@@", GedcomAnonymizer.init false false) :=
  (c7_malformed_passthrough (GedcomAnonymizer.init false false) "@@@"
    (by decide)).2 (by decide)

/-- C5 counterexample: `"01 TITL Secret"` is well-formed, its numeric
nesting level is 1 and its value is non-empty after trimming, yet the
value passes through verbatim instead of being replaced with
`"[anonymized]"`: the code compares the level *token* against the
string `"1"`, not the numeric level. -/
theorem c5_numeric_level_cex :
    decompose "01 TITL Secret" = some ⟨"01", none, "TITL", "Secret"⟩
    ∧ digitsVal "01" = 1
    ∧ pyStrip "Secret" ≠ ""
    ∧ (anonymize_line (GedcomAnonymizer.init false false) "01 TITL Secret").1
        = "01 TITL Secret"
    ∧ ("01 TITL Secret" : String) ≠ "01 TITL [anonymized]" := by
  decide

/-- C5 (as amended): a well-formed TITL line with a non-empty (after
trimming) value is replaced with `"[anonymized]"` exactly when its
level *token* is the string `"1"`; with any other level token
(including other spellings of the number one, such as `"01"`) the value
is passed through verbatim. -/
theorem c5_titl_level_token (st : GedcomAnonymizer) (l : String) (d : DLine)
    (hd : decompose (stripBOM l) = some d) (ht : d.tag = "TITL") :
    (d.level = "1" → pyStrip d.value ≠ "" →
      (anonymize_line st l).1 = buildBase d ++ " [anonymized]")
    ∧ (d.level = "1" → pyStrip d.value = "" →
      (anonymize_line st l).1 = buildBase d)
    ∧ (d.level ≠ "1" →
      (anonymize_line st l).1
        = if d.value ≠ "" then buildBase d ++ " " ++ d.value
          else buildBase d) := by
  have h1 : ¬ d.tag = "NAME" := by rw [ht]; decide
  have h2 : ¬ d.tag = "PLAC" := by rw [ht]; decide
  have h3 : ¬ d.tag = "DATE" := by rw [ht]; decide
  have h4 : ¬ d.tag ∈ textTags := by rw [ht]; decide
  have h5 : ¬ d.tag ∈ namePartTags := by rw [ht]; decide
  have h6 : ¬ d.tag ∈ addrTags := by rw [ht]; decide
  have h7 : ¬ d.tag ∈ contactTags := by rw [ht]; decide
  rw [anonymize_line_cases hd, if_neg h1, if_neg h2, if_neg h3, if_neg h4,
    if_neg h5, if_neg h6, if_neg h7]
  refine ⟨?_, ?_, ?_⟩
  · intro hl hv
    rw [if_pos ⟨ht, hl⟩]
    dsimp only
    rw [if_pos hv]
  · intro hl hv
    rw [if_pos ⟨ht, hl⟩]
    dsimp only
    rw [if_neg (fun hne => hne hv)]
  · intro hl
    rw [if_neg (by rintro ⟨_, hx⟩; exact hl hx)]

theorem c5_titl_level_token_witness :
    (anonymize_line (GedcomAnonymizer.init false false) "1 TITL My Source").1
      = "1 TITL [anonymized]" := by
  have h := (c5_titl_level_token (GedcomAnonymizer.init false false)
    "1 TITL My Source" ⟨"1", none, "TITL", "My Source"⟩ (by decide) rfl).1
    rfl (by decide)
  rw [h]
  decide

/-- C6 counterexample: a well-formed DATE line with an empty value
(`"1 DATE"`) has an empty substituted value, yet the emitted line is
`"1 DATE "` — it does not end at the tag: a trailing space is
introduced, so the claim is false as stated. -/
theorem c6_empty_date_cex :
    decompose "1 DATE" = some ⟨"1", none, "DATE", ""⟩
    ∧ (anonymize_line (GedcomAnonymizer.init false false) "1 DATE").1
        = "1 DATE "
    ∧ ("1 DATE " : String) ≠ "1 DATE" := by
  decide

/-- C6 (as amended): for every well-formed line the replacement is
built as level, a single space, the xref verbatim if present, then the
tag; for the NAME, PLAC and DATE branches a space and the substituted
value are *always* appended (leaving a trailing space when that value
is empty — possible for DATE, and for PLAC under keep_places), while
for every other tag the space and substituted value are appended only
when the substituted value is non-empty, so those lines end at the tag
with no trailing whitespace. -/
theorem c6_reassembly (st : GedcomAnonymizer) (l : String) (d : DLine)
    (hd : decompose (stripBOM l) = some d) :
    (anonymize_line st l).1
      = buildBase d ++
          (if d.tag = "NAME" ∨ d.tag = "PLAC" ∨ d.tag = "DATE"
           then " " ++ substValue st d
           else if substValue st d ≠ "" then " " ++ substValue st d
           else "") := by
  rw [anonymize_line_cases hd, substValue]
  by_cases h1 : d.tag = "NAME"
  · rw [if_pos h1, if_pos h1, if_pos (Or.inl h1)]
    dsimp only
    rw [String.append_assoc]
  rw [if_neg h1, if_neg h1]
  by_cases h2 : d.tag = "PLAC"
  · rw [if_pos h2, if_pos h2, if_pos (Or.inr (Or.inl h2))]
    dsimp only
    rw [String.append_assoc]
  rw [if_neg h2, if_neg h2]
  by_cases h3 : d.tag = "DATE"
  · rw [if_pos h3, if_pos h3, if_pos (Or.inr (Or.inr h3))]
    dsimp only
    rw [String.append_assoc]
  rw [if_neg h3, if_neg h3,
    if_neg (show ¬(d.tag = "NAME" ∨ d.tag = "PLAC" ∨ d.tag = "DATE") by
      rintro (hx | hx | hx)
      · exact h1 hx
      · exact h2 hx
      · exact h3 hx)]
  by_cases h4 : d.tag ∈ textTags
  · rw [if_pos h4, if_pos h4]
    dsimp only
    by_cases h5 : pyStrip d.value ≠ ""
    · rw [if_pos h5, if_pos h5, if_pos (by decide : ("[anonymized text]" : String) ≠ "")]
      rw [show (" [anonymized text]" : String) = " " ++ "[anonymized text]" from rfl]
    · rw [if_neg h5, if_neg h5, if_neg (fun hx => hx rfl), String.append_empty]
  rw [if_neg h4, if_neg h4]
  by_cases h5 : d.tag ∈ namePartTags
  · rw [if_pos h5, if_pos (Or.inl h5)]
    dsimp only
    by_cases h6 : pyStrip d.value ≠ ""
    · rw [if_pos h6, if_pos h6, if_pos (by decide : ("[anonymized]" : String) ≠ "")]
      rw [show (" [anonymized]" : String) = " " ++ "[anonymized]" from rfl]
    · rw [if_neg h6, if_neg h6, if_neg (fun hx => hx rfl), String.append_empty]
  rw [if_neg h5]
  by_cases h6 : d.tag ∈ addrTags
  · rw [if_pos h6, if_pos (Or.inr (Or.inl h6))]
    dsimp only
    by_cases h7 : pyStrip d.value ≠ ""
    · rw [if_pos h7, if_pos h7, if_pos (by decide : ("[anonymized]" : String) ≠ "")]
      rw [show (" [anonymized]" : String) = " " ++ "[anonymized]" from rfl]
    · rw [if_neg h7, if_neg h7, if_neg (fun hx => hx rfl), String.append_empty]
  rw [if_neg h6]
  by_cases h7 : d.tag ∈ contactTags
  · rw [if_pos h7, if_pos (Or.inr (Or.inr h7))]
    dsimp only
    by_cases h8 : pyStrip d.value ≠ ""
    · rw [if_pos h8, if_pos h8, if_pos (by decide : ("[anonymized]" : String) ≠ "")]
      rw [show (" [anonymized]" : String) = " " ++ "[anonymized]" from rfl]
    · rw [if_neg h8, if_neg h8, if_neg (fun hx => hx rfl), String.append_empty]
  rw [if_neg h7,
    if_neg (show ¬(d.tag ∈ namePartTags ∨ d.tag ∈ addrTags ∨ d.tag ∈ contactTags) by
      rintro (hx | hx | hx)
      · exact h5 hx
      · exact h6 hx
      · exact h7 hx)]
  by_cases h8 : d.tag = "TITL" ∧ d.level = "1"
  · rw [if_pos h8, if_pos h8]
    dsimp only
    by_cases h9 : pyStrip d.value ≠ ""
    · rw [if_pos h9, if_pos h9, if_pos (by decide : ("[anonymized]" : String) ≠ "")]
      rw [show (" [anonymized]" : String) = " " ++ "[anonymized]" from rfl]
    · rw [if_neg h9, if_neg h9, if_neg (fun hx => hx rfl), String.append_empty]
  rw [if_neg h8, if_neg h8]
  dsimp only
  by_cases h9 : d.value ≠ ""
  · rw [if_pos h9, if_pos h9, String.append_assoc]
  · rw [if_neg h9, if_neg h9, String.append_empty]

theorem c6_reassembly_witness :
    (anonymize_line (GedcomAnonymizer.init false false) "0 HEAD").1
      = "0 HEAD" := by
  have h := c6_reassembly (GedcomAnonymizer.init false false) "0 HEAD"
    ⟨"0", none, "HEAD", ""⟩ (by decide)
  rw [h]
  decide

/-- Rule 1's regex fires exactly on values with a rule-1-shaped prefix
over the `\w` token class. -/
theorem rule1Prefixed_iff_match {d : String} :
    Rule1Prefixed isWordCh d ↔ matchRule1L d.toList = true :=
  Iff.symm (matchRule1Gen_iff fun _ hc => word_not_ws hc)

/-- C3: with keep_dates false, date normalization applies the first
matching of the four rules, each an anchored prefix match on the
original value (the three shapes are in fact pairwise disjoint, so at
most one fires): a day-month-year shaped prefix yields the literal
"1 JAN 1900"; a qualifier (ABT/BEF/AFT/CAL/EST), whitespace and four
digits yield "<qualifier> 1900" with the original qualifier preserved;
a four-digit prefix yields "1900"; otherwise the value is returned
unchanged — together with the four concrete examples of the spec. -/
theorem c3_date_rule_cascade (st : GedcomAnonymizer)
    (hkd : st.keep_dates = false) :
    (∀ d : String, Rule1Prefixed isWordCh d → anonymize_date st d = "1 JAN 1900")
    ∧ (∀ (d q : String), q ∈ dateQualifiers → Rule2PrefixWith d q →
        anonymize_date st d = q ++ " 1900")
    ∧ (∀ d : String, Rule3Prefixed d → anonymize_date st d = "1900")
    ∧ (∀ d : String, ¬ Rule1Prefixed isWordCh d → ¬ Rule2Prefixed d →
        ¬ Rule3Prefixed d → anonymize_date st d = d)
    ∧ anonymize_date st "1 JAN 1900" = "1 JAN 1900"
    ∧ anonymize_date st "ABT 1850" = "ABT 1900"
    ∧ anonymize_date st "1923" = "1900"
    ∧ anonymize_date st "Unknown" = "Unknown" := by
  refine ⟨?_, ?_, ?_, ?_, ?_, ?_, ?_, ?_⟩
  · intro d h
    exact anonymize_date_rule1 hkd (rule1Prefixed_iff_match.mp h)
  · intro d q hq hw
    obtain ⟨w, d4, r, hl, hwb, hlen, hdig⟩ := hw
    have m2 : matchRule2L d.toList = true :=
      matchRule2L_iff.mpr ⟨q, hq, w, d4, r, hl, hwb, hlen, hdig⟩
    have hl2 : d.toList = q.toList ++ w ++ (d4 ++ r) := by
      rw [hl]
      simp [List.append_assoc]
    rw [anonymize_date_rule2 hkd m2, firstTok_of_qual hq hl2 hwb]
  · intro d h
    obtain ⟨d4, r, hl, hlen, hdig⟩ := h
    exact anonymize_date_rule3 hkd (matchRule3L_iff.mpr ⟨d4, r, hl, hlen, hdig⟩)
  · intro d h1 h2 h3
    have m1 : matchRule1L d.toList = false := by
      cases hm : matchRule1L d.toList with
      | false => rfl
      | true => exact absurd (rule1Prefixed_iff_match.mpr hm) h1
    have m2 : matchRule2L d.toList = false := by
      cases hm : matchRule2L d.toList with
      | false => rfl
      | true =>
        obtain ⟨q, hq, w, d4, r, hl, hwb, hlen, hdig⟩ := matchRule2L_iff.mp hm
        exact absurd ⟨q, hq, w, d4, r, hl, hwb, hlen, hdig⟩ h2
    have m3 : matchRule3L d.toList = false := by
      cases hm : matchRule3L d.toList with
      | false => rfl
      | true => exact absurd (matchRule3L_iff.mp hm) h3
    exact anonymize_date_rule4 hkd m1 m2 m3
  · exact anonymize_date_rule1 hkd (by decide)
  · exact (anonymize_date_rule2 hkd (by decide)).trans (by decide)
  · exact anonymize_date_rule3 hkd (by decide)
  · exact anonymize_date_rule4 hkd (by decide) (by decide) (by decide)

theorem c3_date_rule_cascade_witness :
    anonymize_date (GedcomAnonymizer.init false false) "ABT 1850"
      = "ABT 1900" :=
  (c3_date_rule_cascade (GedcomAnonymizer.init false false) rfl).2.2.2.2.2.1

/-- C8 counterexample: the value `"1 123 1900"` has no prefix of the
claimed shape with a 3-*letter* token (its month slot holds digits),
yet rule 1 fires on it — the code's token class is `\w`, not letters —
and the value is replaced with "1 JAN 1900" instead of passing through
unchanged. -/
theorem c8_letter_token_cex :
    matchRule1L ("1 123 1900" : String).toList = true
    ∧ ¬ Rule1Prefixed (fun c => c.isAlpha) "1 123 1900"
    ∧ anonymize_date (GedcomAnonymizer.init false false) "1 123 1900"
        = "1 JAN 1900"
    ∧ ("1 JAN 1900" : String) ≠ "1 123 1900" := by
  refine ⟨by decide, ?_, by decide, by decide⟩
  intro h
  have h2 := (matchRule1Gen_iff fun c hc => alpha_not_ws hc).mpr h
  exact absurd h2 (by decide)

/-- C8 (as amended): rule 1 fires exactly on values whose prefix is one
or two digits, whitespace, a 3-character *word* token (letters, digits
or underscore — not only letters), whitespace, and four digits; the day
value's range is not validated ("99 ZZZ 1900" matches by shape), and
any matching value is replaced with the fixed literal "1 JAN 1900". -/
theorem c8_rule1_word_shape :
    (∀ d : String, matchRule1L d.toList = true ↔ Rule1Prefixed isWordCh d)
    ∧ (∀ (st : GedcomAnonymizer) (d : String), st.keep_dates = false →
        matchRule1L d.toList = true → anonymize_date st d = "1 JAN 1900")
    ∧ matchRule1L ("99 ZZZ 1900" : String).toList = true
    ∧ anonymize_date (GedcomAnonymizer.init false false) "99 ZZZ 1900"
        = "1 JAN 1900" :=
  ⟨fun _ => rule1Prefixed_iff_match.symm,
   fun _ _ hkd hm => anonymize_date_rule1 hkd hm,
   by decide, by decide⟩

theorem c8_rule1_word_shape_witness :
    anonymize_date (GedcomAnonymizer.init false false) "12 MAR 1850"
      = "1 JAN 1900" :=
  c8_rule1_word_shape.2.1 (GedcomAnonymizer.init false false) "12 MAR 1850"
    rfl (by decide)

/-- C9: a well-formed NAME line with an empty value still assigns a
placeholder: the empty string resolves through the name identity map to
some "Person n" which is emitted as the line's value (so a NAME line is
never emitted in the bare tag-with-no-value form), and on first
encounter the empty string is inserted into the map consuming the next
person counter number — regardless of configuration (the hypothesis
`EngineInv st` states the reachable-state invariant of the maps,
established by `c10`'s development). -/
theorem c9_empty_name_placeholder (st : GedcomAnonymizer) (l : String)
    (d : DLine) (hInv : EngineInv st) (hd : decompose (stripBOM l) = some d)
    (ht : d.tag = "NAME") (hv : d.value = "") :
    ∃ n, (anonymize_line st l).1 = buildBase d ++ " " ++ personPh n
      ∧ lookupV (anonymize_line st l).2.name_map "" = some (personPh n)
      ∧ (anonymize_line st l).1 ≠ buildBase d
      ∧ (lookupV st.name_map "" = none →
          n = st.person_counter
          ∧ (anonymize_line st l).2.person_counter = st.person_counter + 1
          ∧ (anonymize_line st l).2.name_map
              = st.name_map ++ [("", personPh st.person_counter)]) := by
  rw [anonymize_line_cases hd, if_pos ht, hv]
  dsimp only
  rcases hl : lookupV st.name_map "" with _ | p
  · refine ⟨st.person_counter, ?_, ?_, base_append_ne _ _, fun _ => ⟨rfl, ?_, ?_⟩⟩
    · rw [anonymize_name, hl]
    · rw [anonymize_name, hl]
      dsimp only
      rw [lookupV_append_none hl, lookupV, if_pos rfl]
    · rw [anonymize_name, hl]
    · rw [anonymize_name, hl]
  · have hmem : p ∈ st.name_map.map Prod.snd := lookupV_mem_snd hl
    rw [hInv.2.1] at hmem
    obtain ⟨i, hi, hp⟩ := List.mem_map.mp hmem
    refine ⟨i + 1, ?_, ?_, base_append_ne _ _, fun habs => ?_⟩
    · rw [anonymize_name, hl, hp]
    · rw [anonymize_name, hl, hp]
      dsimp only
      exact hl
    · exact Option.noConfusion habs

theorem c9_empty_name_placeholder_witness :
    ∃ n, (anonymize_line (GedcomAnonymizer.init false false) "1 NAME").1
        = buildBase ⟨"1", none, "NAME", ""⟩ ++ " " ++ personPh n
      ∧ lookupV (anonymize_line (GedcomAnonymizer.init false false)
          "1 NAME").2.name_map "" = some (personPh n)
      ∧ (anonymize_line (GedcomAnonymizer.init false false) "1 NAME").1
          ≠ buildBase ⟨"1", none, "NAME", ""⟩
      ∧ (lookupV (GedcomAnonymizer.init false false).name_map "" = none →
          n = (GedcomAnonymizer.init false false).person_counter
          ∧ (anonymize_line (GedcomAnonymizer.init false false)
              "1 NAME").2.person_counter
              = (GedcomAnonymizer.init false false).person_counter + 1
          ∧ (anonymize_line (GedcomAnonymizer.init false false)
              "1 NAME").2.name_map
              = (GedcomAnonymizer.init false false).name_map
                ++ [("", personPh
                      (GedcomAnonymizer.init false false).person_counter)]) :=
  c9_empty_name_placeholder (GedcomAnonymizer.init false false) "1 NAME"
    ⟨"1", none, "NAME", ""⟩ (engineInv_init false false) (by decide) rfl rfl

/-- C10: after every call to the per-line anonymization operation the
engine state keeps the identity-map invariant — each map's size is its
counter minus one and the map's values, in insertion order, are exactly
the placeholders "Person 1" … "Person k" (resp. "Place 1" … "Place m"),
stated as `EngineInv`; the invariant holds of the fresh engine and is
preserved by every call, and map sizes and counters never decrease
across a call. -/
theorem c10_engine_invariant :
    (∀ kd kp : Bool, EngineInv (GedcomAnonymizer.init kd kp))
    ∧ (∀ (st : GedcomAnonymizer) (l : String),
        EngineInv st → EngineInv (anonymize_line st l).2)
    ∧ (∀ (st : GedcomAnonymizer) (l : String),
        st.name_map.length ≤ (anonymize_line st l).2.name_map.length
        ∧ st.person_counter ≤ (anonymize_line st l).2.person_counter
        ∧ st.place_map.length ≤ (anonymize_line st l).2.place_map.length
        ∧ st.place_counter ≤ (anonymize_line st l).2.place_counter) :=
  ⟨engineInv_init, fun _ l h => engineInv_step l h, anonymize_line_mono⟩

theorem c10_engine_invariant_witness :
    EngineInv (anonymize_line (GedcomAnonymizer.init false false)
      "1 NAME Ann").2 :=
  c10_engine_invariant.2.1 (GedcomAnonymizer.init false false) "1 NAME Ann"
    (c10_engine_invariant.1 false false)

/-- C2: processing a whole document produces exactly one output line
per input line, in the same order (the i-th output corresponds to the
i-th input), and a blank input line is reproduced identically.  Line
bodies carry no newline or carriage-return characters — the text-mode
reader's universal-newline translation guarantees this — which the
`hasNlCr` hypothesis records. -/
theorem c2_line_count_and_blanks (kd kp : Bool) (doc : List String) :
    (anonymize_file kd kp doc).1.length = doc.length
    ∧ (∀ (i : Nat) (l : String), doc[i]? = some l → hasNlCr l = false → pyStrip l = "" →
        (anonymize_file kd kp doc).1[i]? = some l) := by
  refine ⟨anonymize_lines_length _ doc, ?_⟩
  intro i l h hnl hblank
  have hr : rstripNlCr l = l := rstripNlCr_eq_self hnl
  have hout := anonymize_lines_get? doc (GedcomAnonymizer.init kd kp) i l h
  rw [hr, if_pos hblank] at hout
  exact hout

theorem c2_line_count_and_blanks_witness :
    (anonymize_file false false ["0 HEAD", ""]).1.length = 2
    ∧ (anonymize_file false false ["0 HEAD", ""]).1[1]? = some "" :=
  ⟨(c2_line_count_and_blanks false false ["0 HEAD", ""]).1.trans (by decide),
   (c2_line_count_and_blanks false false ["0 HEAD", ""]).2 1 "" (by decide)
     (by decide) (by decide)⟩

/-- C4: the configuration toggles are pure pass-through switches — with
keep_dates true every well-formed DATE line's value is byte-for-byte
identical between input and output; with keep_places true every
well-formed PLAC line's value is unchanged and the place identity map
is empty after every prefix of the run. -/
theorem c4_keep_toggles (doc : List String) :
    (∀ (kp : Bool) (i : Nat) (l : String) (d : DLine), doc[i]? = some l →
        pyStrip (rstripNlCr l) ≠ "" →
        decompose (stripBOM (rstripNlCr l)) = some d → d.tag = "DATE" →
        (anonymize_file true kp doc).1[i]? = some (buildBase d ++ " " ++ d.value))
    ∧ (∀ (kd : Bool) (i : Nat) (l : String) (d : DLine), doc[i]? = some l →
        pyStrip (rstripNlCr l) ≠ "" →
        decompose (stripBOM (rstripNlCr l)) = some d → d.tag = "PLAC" →
        (anonymize_file kd true doc).1[i]? = some (buildBase d ++ " " ++ d.value))
    ∧ (∀ (kd : Bool) (n : Nat),
        (anonymize_lines (GedcomAnonymizer.init kd true) (doc.take n)).2.place_map
          = []) := by
  refine ⟨?_, ?_, ?_⟩
  · intro kp i l d h hb hd ht
    have hn : ¬ d.tag = "NAME" := by rw [ht]; decide
    have hp : ¬ d.tag = "PLAC" := by rw [ht]; decide
    have hout := anonymize_lines_get? doc (GedcomAnonymizer.init true kp) i l h
    rw [if_neg hb, anonymize_line_cases hd, if_neg hn, if_neg hp,
      if_pos ht] at hout
    dsimp only at hout
    have hkdi : (anonymize_lines (GedcomAnonymizer.init true kp)
        (doc.take i)).2.keep_dates = true := by
      rw [(anonymize_lines_flags _ _).1]
      rfl
    rw [anonymize_date_keep d.value hkdi] at hout
    exact hout
  · intro kd i l d h hb hd ht
    have hn : ¬ d.tag = "NAME" := by rw [ht]; decide
    have hout := anonymize_lines_get? doc (GedcomAnonymizer.init kd true) i l h
    rw [if_neg hb, anonymize_line_cases hd, if_neg hn, if_pos ht] at hout
    dsimp only at hout
    have hkpi : (anonymize_lines (GedcomAnonymizer.init kd true)
        (doc.take i)).2.keep_places = true := by
      rw [(anonymize_lines_flags _ _).2]
      rfl
    have hkeep := anonymize_place_keep
      ((anonymize_lines (GedcomAnonymizer.init kd true) (doc.take i)).2)
      d.value hkpi
    have hval := congrArg Prod.fst hkeep
    dsimp only at hval
    rw [hval] at hout
    exact hout
  · intro kd n
    exact (anonymize_lines_place_keep (GedcomAnonymizer.init kd true)
      (doc.take n) rfl).1

theorem c4_keep_toggles_witness :
    (anonymize_file true false ["2 DATE 4 JUL 1776"]).1[0]?
        = some "2 DATE 4 JUL 1776"
    ∧ (anonymize_file false true ["2 PLAC Boston"]).1[0]?
        = some "2 PLAC Boston"
    ∧ (anonymize_lines (GedcomAnonymizer.init false true)
        (["2 PLAC Boston"].take 1)).2.place_map = [] :=
  ⟨((c4_keep_toggles ["2 DATE 4 JUL 1776"]).1 false 0 "2 DATE 4 JUL 1776"
      ⟨"2", none, "DATE", "4 JUL 1776"⟩ (by decide) (by decide) (by decide)
      rfl).trans (by decide),
   ((c4_keep_toggles ["2 PLAC Boston"]).2.1 false 0 "2 PLAC Boston"
      ⟨"2", none, "PLAC", "Boston"⟩ (by decide) (by decide) (by decide)
      rfl).trans (by decide),
   (c4_keep_toggles ["2 PLAC Boston"]).2.2 false 1⟩

/-- C1: for every document processed on a fresh engine, the N-th
distinct NAME value in document order (0-based index n, so N = n+1)
resolves in the final name map to "Person N"; the output of every
well-formed NAME line carries exactly the placeholder its value
resolves to (so identical original values always resolve to the same
placeholder); two distinct original values never share a placeholder;
and the analogous three statements hold for PLAC values with "Place N"
when keep_places is false. -/
theorem c1_identity_map_numbering (kd kp : Bool) (doc : List String) :
    (∀ (n : Nat) (v : String), (firstOccs (nameVals doc))[n]? = some v →
       lookupV (anonymize_file kd kp doc).2.name_map v
         = some (personPh (n + 1)))
    ∧ (∀ (i : Nat) (l : String) (d : DLine), doc[i]? = some l →
        ¬ pyStrip (rstripNlCr l) = "" →
        decompose (stripBOM (rstripNlCr l)) = some d → d.tag = "NAME" →
        ∃ p, lookupV (anonymize_file kd kp doc).2.name_map d.value = some p
          ∧ (anonymize_file kd kp doc).1[i]? = some (buildBase d ++ " " ++ p))
    ∧ (∀ v w p q : String, lookupV (anonymize_file kd kp doc).2.name_map v = some p →
        lookupV (anonymize_file kd kp doc).2.name_map w = some q →
        v ≠ w → p ≠ q)
    ∧ (kp = false →
        (∀ (n : Nat) (v : String), (firstOccs (placeVals doc))[n]? = some v →
           lookupV (anonymize_file kd kp doc).2.place_map v
             = some (placePh (n + 1)))
        ∧ (∀ (i : Nat) (l : String) (d : DLine), doc[i]? = some l →
            ¬ pyStrip (rstripNlCr l) = "" →
            decompose (stripBOM (rstripNlCr l)) = some d → d.tag = "PLAC" →
            ∃ p, lookupV (anonymize_file kd kp doc).2.place_map d.value = some p
              ∧ (anonymize_file kd kp doc).1[i]?
                  = some (buildBase d ++ " " ++ p))
        ∧ (∀ v w p q : String,
            lookupV (anonymize_file kd kp doc).2.place_map v = some p →
            lookupV (anonymize_file kd kp doc).2.place_map w = some q →
            v ≠ w → p ≠ q)) := by
  have hnm := (Prod.mk.inj (anonymize_file_name_pair kd kp doc)).1
  refine ⟨?_, ?_, ?_, ?_⟩
  · intro n v hv
    rw [hnm, lookupV_numbered_get (firstOccs_nodup (nameVals doc)) 1 n v hv]
    have he : 1 + n = n + 1 := by omega
    rw [he]
  · intro i l d h hb hd ht
    exact nameLine_output h hb hd ht
  · intro v w p q hp hq hne heq
    apply hne
    rw [hnm] at hp hq
    obtain ⟨n1, h1, e1⟩ := lookupV_numbered_some 1 hp
    obtain ⟨n2, h2, e2⟩ := lookupV_numbered_some 1 hq
    have hn12 : 1 + n1 = 1 + n2 := personPh_inj ((e1.symm.trans heq).trans e2)
    have he : n1 = n2 := by omega
    rw [he] at h1
    rw [h1] at h2
    injection h2
  · intro hkp
    subst hkp
    have hpm := (Prod.mk.inj (anonymize_file_place_pair kd doc)).1
    refine ⟨?_, ?_, ?_⟩
    · intro n v hv
      rw [hpm, lookupV_numbered_get (firstOccs_nodup (placeVals doc)) 1 n v hv]
      have he : 1 + n = n + 1 := by omega
      rw [he]
    · intro i l d h hb hd ht
      exact placeLine_output rfl h hb hd ht
    · intro v w p q hp hq hne heq
      apply hne
      rw [hpm] at hp hq
      obtain ⟨n1, h1, e1⟩ := lookupV_numbered_some 1 hp
      obtain ⟨n2, h2, e2⟩ := lookupV_numbered_some 1 hq
      have hn12 : 1 + n1 = 1 + n2 := placePh_inj ((e1.symm.trans heq).trans e2)
      have he : n1 = n2 := by omega
      rw [he] at h1
      rw [h1] at h2
      injection h2

theorem c1_identity_map_numbering_witness :
    lookupV (anonymize_file false false
        ["1 NAME John /Smith/", "2 PLAC Boston", "1 NAME Ann"]).2.name_map
        "Ann" = some (personPh 2)
    ∧ (∃ p, lookupV (anonymize_file false false
          ["1 NAME John /Smith/", "2 PLAC Boston", "1 NAME Ann"]).2.name_map
          "John /Smith/" = some p
        ∧ (anonymize_file false false
            ["1 NAME John /Smith/", "2 PLAC Boston", "1 NAME Ann"]).1[0]?
            = some (buildBase ⟨"1", none, "NAME", "John /Smith/"⟩ ++ " " ++ p))
    ∧ lookupV (anonymize_file false false
        ["1 NAME John /Smith/", "2 PLAC Boston", "1 NAME Ann"]).2.place_map
        "Boston" = some (placePh 1) :=
  ⟨(c1_identity_map_numbering false false
      ["1 NAME John /Smith/", "2 PLAC Boston", "1 NAME Ann"]).1 1 "Ann"
      (by decide),
   (c1_identity_map_numbering false false
      ["1 NAME John /Smith/", "2 PLAC Boston", "1 NAME Ann"]).2.1 0
      "1 NAME John /Smith/" ⟨"1", none, "NAME", "John /Smith/"⟩ (by decide)
      (by decide) (by decide) rfl,
   ((c1_identity_map_numbering false false
      ["1 NAME John /Smith/", "2 PLAC Boston", "1 NAME Ann"]).2.2.2 rfl).1 0
      "Boston" (by decide)⟩

end Gedcom
